import Mathlib

/-!
Verification of the document segmentation pipeline of the Legos repository:
the type classifier (`detectionAgent.py`), the OCR fallback router
(`src/utils/ocr.py`), and the section splitter / token-bounded chunker
(`ingestion-service/utils/chunking.py`).

Text is modelled as `List Char`.  The outcome of each external call
(DocumentAI, Vision, Tesseract, PyPDF2) is modelled by an explicit outcome
value fed to the pure function that the source wraps around it; everything
after the external call is translated statement by statement from the source.
-/

/-- Whitespace test used throughout: models Python's whitespace class as used
by `str.strip`, `str.split` and the regex class `\s` on the character range the
pipeline handles. -/
def isWSb (c : Char) : Bool := c.isWhitespace

/-- Python `str.strip`: drop whitespace from both ends. -/
def stripChars (l : List Char) : List Char :=
  (l.dropWhile isWSb).rdropWhile isWSb

/-- Every character is whitespace. -/
def wsOnly (l : List Char) : Bool := l.all isWSb

/-- Helper for `wordsOf`: walk the characters holding the current word
reversed. -/
def splitWSAux : List Char → List Char → List (List Char)
  | [], cur => if cur.isEmpty then [] else [cur.reverse]
  | c :: cs, cur =>
    if isWSb c then
      if cur.isEmpty then splitWSAux cs [] else cur.reverse :: splitWSAux cs []
    else splitWSAux cs (c :: cur)

/-- Python `str.split()` with no separator: whitespace-delimited words, with
no empty entries. -/
def wordsOf (l : List Char) : List (List Char) := splitWSAux l []

/-- Token estimator `chunking.estimate_tokens`: `max(1, int(words / 0.75))`.
For a word count `w` the float expression `int(w / 0.75)` equals `⌊4w/3⌋`
exactly at every realistic magnitude, so the estimator is `max 1 (4*w/3)` in
natural-number division. -/
def estimate_tokens (l : List Char) : Nat :=
  max 1 (4 * (wordsOf l).length / 3)

/-- Python `" ".join`. -/
def joinSpace : List (List Char) → List Char
  | [] => []
  | [x] => x
  | x :: y :: xs => x ++ ' ' :: joinSpace (y :: xs)

/-- Python slice `text[a:b]` (for `0 ≤ a ≤ b ≤ len`). -/
def pySlice (l : List Char) (a b : Nat) : List Char := (l.drop a).take (b - a)

/-! ## OCR data model (`agents/state/types.py`, `src/utils/ocr.py`) -/

/-- The `OCREngine`/`Engine` literal type. -/
inductive Engine
  | docai
  | vision
  | tesseract
deriving DecidableEq, Repr

/-- The string name of an engine, as it appears in warnings. -/
def Engine.name : Engine → String
  | .docai => "docai"
  | .vision => "vision"
  | .tesseract => "tesseract"

/-- The `RefinedType` literal type. -/
inductive RefinedType
  | pdf_text
  | pdf_scanned
  | word
  | excel
  | text
  | image
  | unknown
  | encrypted
  | corrupted
deriving DecidableEq, Repr

/-- `OCRConfig` from `agents/state/types.py`. -/
structure OCRConfig where
  engine_priority : List Engine
  language_hints : Option (List String)
  vision_batch_size : Nat
  tesseract_lang : String
  tesseract_psm : Nat
  tesseract_oem : Nat
  tesseract_dpi : Nat
  ocr_max_pages : Option Nat
  ocr_timeout_sec : Nat
  enable_preprocess : Bool
deriving DecidableEq, Repr

/-- `OCRResult` from `agents/state/types.py`.  Confidences are modelled as
exact rationals. -/
structure OCRResult where
  text : String
  engine : Engine
  pages_processed : Nat
  avg_confidence : Option ℚ
  language_codes : List String
  warnings : List String
  error : String
deriving DecidableEq, Repr

/-- Python `config.language_hints or []`. -/
def hintsOf (config : OCRConfig) : List String :=
  match config.language_hints with
  | none => []
  | some l => if l.isEmpty then [] else l

/-- Accumulate language codes, skipping empty codes and duplicates
(the `if code and code not in language_codes` pattern). -/
def addLangs (acc : List String) (ls : List String) : List String :=
  ls.foldl (fun a code => if code ≠ "" ∧ code ∉ a then a ++ [code] else a) acc

/-- Per-page data read off a DocumentAI response. -/
structure DocaiPage where
  confidence : Option ℚ
  langs : List String
deriving DecidableEq, Repr

/-- Outcome of the DocumentAI interaction in `run_docai`: missing environment
configuration, an exception (whose message becomes the error string), or a
parsed document. -/
inductive DocaiOutcome
  | envMissing
  | exn (msg : String)
  | ok (docText : String) (pages : List DocaiPage)
deriving DecidableEq, Repr

/-- `_parse_docai_response`. -/
def _parse_docai_response (docText : String) (pages : List DocaiPage) : OCRResult :=
  let confidences : List ℚ := pages.filterMap (fun p => p.confidence)
  let language_codes : List String := pages.foldl (fun a p => addLangs a p.langs) []
  { text := docText
    engine := .docai
    pages_processed := pages.length
    avg_confidence :=
      if confidences.isEmpty then none else some (confidences.sum / confidences.length)
    language_codes := language_codes
    warnings := []
    error := "" }

/-- `run_docai`, with the external interaction abstracted into the outcome. -/
def run_docai (o : DocaiOutcome) : OCRResult :=
  match o with
  | .envMissing =>
    { text := "", engine := .docai, pages_processed := 0, avg_confidence := none
      language_codes := [], warnings := ["Missing DocumentAI environment configuration"]
      error := "config_error" }
  | .exn msg =>
    { text := "", engine := .docai, pages_processed := 0, avg_confidence := none
      language_codes := [], warnings := [], error := msg }
  | .ok docText pages => _parse_docai_response docText pages

/-- Per-page data read off a Vision response: the per-symbol confidences in
reading order and the detected language codes. -/
structure VisionPage where
  symbolConfs : List ℚ
  langs : List String
deriving DecidableEq, Repr

/-- Outcome of the Vision interaction in `run_vision`: an exception, or a
response carrying an error message (empty when no error), the full text
annotation and its pages. -/
inductive VisionOutcome
  | exn (msg : String)
  | response (errMsg : String) (annText : String) (pages : List VisionPage)
deriving DecidableEq, Repr

/-- `run_vision`, with the external interaction abstracted into the outcome. -/
def run_vision (o : VisionOutcome) (config : OCRConfig) : OCRResult :=
  match o with
  | .exn msg =>
    { text := "", engine := .vision, pages_processed := 0, avg_confidence := none
      language_codes := hintsOf config, warnings := [], error := msg }
  | .response errMsg annText pages =>
    if errMsg ≠ "" then
      { text := "", engine := .vision, pages_processed := 0, avg_confidence := none
        language_codes := hintsOf config, warnings := [], error := errMsg }
    else
      let confidences : List ℚ := (pages.map (fun p => p.symbolConfs)).flatten
      let language_codes : List String := pages.foldl (fun a p => addLangs a p.langs) []
      { text := annText
        engine := .vision
        pages_processed := pages.length
        avg_confidence :=
          if confidences.isEmpty then none else some (confidences.sum / confidences.length)
        language_codes := if language_codes.isEmpty then hintsOf config else language_codes
        warnings := []
        error := "" }

/-- Python `[config.tesseract_lang] if config.tesseract_lang else []`. -/
def tessLangs (config : OCRConfig) : List String :=
  if config.tesseract_lang ≠ "" then [config.tesseract_lang] else []

/-- Keep a raw Tesseract confidence value if nonnegative, normalising the
0-100 scale to 0-1. -/
def normConf (v : ℚ) : Option ℚ :=
  if 0 ≤ v then some (if 1 < v then v / 100 else v) else none

/-- One processed frame of a multi-frame image: the parsed confidence column
and the plain-text pass output. -/
structure TessFrame where
  confs : List ℚ
  frameText : String
deriving DecidableEq, Repr

/-- Outcome of the Tesseract interaction in `run_tesseract`: an exception, or
the list of processed frames. -/
inductive TessOutcome
  | exn (msg : String)
  | ok (frames : List TessFrame)
deriving DecidableEq, Repr

/-- `run_tesseract`, with the external interaction abstracted into the
outcome. -/
def run_tesseract (o : TessOutcome) (config : OCRConfig) : OCRResult :=
  match o with
  | .exn msg =>
    { text := "", engine := .tesseract, pages_processed := 0, avg_confidence := none
      language_codes := tessLangs config, warnings := [], error := msg }
  | .ok frames =>
    let confidences : List ℚ := (frames.map (fun f => f.confs.filterMap normConf)).flatten
    { text := String.intercalate "\n" (frames.map (fun f => f.frameText))
      engine := .tesseract
      pages_processed := frames.length
      avg_confidence :=
        if confidences.isEmpty then none else some (confidences.sum / confidences.length)
      language_codes := tessLangs config
      warnings := []
      error := "" }

/-- The environment of one router run: what each engine invocation returns for
the underlying file. -/
structure Env where
  docai : DocaiOutcome
  vision : VisionOutcome
  tess : TessOutcome
deriving DecidableEq, Repr

/-- `run_model` from `src/utils/ocr.py`. -/
def run_model (env : Env) (config : OCRConfig) : Engine → OCRResult
  | .docai => run_docai env.docai
  | .vision => run_vision env.vision config
  | .tesseract => run_tesseract env.tess config

/-- The failure tag appended after a failed engine attempt. -/
def failTag (m : Engine) (err : String) : String := m.name ++ "_failed:" ++ err

/-- The fallback loop of `ocr_router`, threading the accumulated warnings and
the last error exactly as the source does. -/
def routerLoop (env : Env) (config : OCRConfig) :
    List Engine → List String → String → OCRResult
  | [], accWarnings, lastError =>
    { text := ""
      engine := config.engine_priority.head?.getD .docai
      pages_processed := 0
      avg_confidence := none
      language_codes := []
      warnings := accWarnings
      error := if lastError ≠ "" then lastError else "all_engines_failed" }
  | m :: rest, accWarnings, _lastError =>
    if (run_model env config m).error = "" then
      if ¬ accWarnings.isEmpty then
        { run_model env config m with
          warnings := (run_model env config m).warnings ++ accWarnings }
      else run_model env config m
    else
      routerLoop env config rest
        (accWarnings ++ [failTag m (run_model env config m).error])
        (run_model env config m).error

/-- `ocr_router` from `src/utils/ocr.py`. -/
def ocr_router (env : Env) (refined_type : RefinedType) (config : OCRConfig) : OCRResult :=
  if ¬ (refined_type = RefinedType.pdf_scanned ∨ refined_type = RefinedType.image) then
    { text := ""
      engine := config.engine_priority.head?.getD .docai
      pages_processed := 0
      avg_confidence := none
      language_codes := []
      warnings := ["OCR not required for this type"]
      error := "" }
  else
    routerLoop env config
      (if config.engine_priority.isEmpty then [.docai, .vision, .tesseract]
       else config.engine_priority) [] ""

/-! ## Type classifier (`agents/input_layer/detectionAgent.py`) -/

/-- A parsed PDF document as `_probe_pdf` sees it: the encryption flag and the
text layer of each page (with `extract_text() or ""` already collapsed into a
character list). -/
structure PdfDoc where
  is_encrypted : Bool
  pages : List (List Char)
deriving DecidableEq, Repr

/-- Outcome of opening and parsing the PDF in `_probe_pdf`: any exception, or
the parsed document. -/
inductive ProbeOutcome
  | failure
  | ok (doc : PdfDoc)
deriving DecidableEq, Repr

/-- `_probe_pdf`: returns (refined kind, OCR needed, parsed). -/
def _probe_pdf (o : ProbeOutcome) : RefinedType × Bool × Bool :=
  match o with
  | .failure => (.corrupted, false, false)
  | .ok doc =>
    if doc.is_encrypted then (.encrypted, false, false)
    else
      let sample := if doc.pages.length > 3 then doc.pages.take 3 else doc.pages
      let has_text := sample.any (fun p => !(stripChars p).isEmpty)
      ((if has_text then .pdf_text else .pdf_scanned), !has_text, true)

/-- The per-file classification logic of `detection_agent` (the branch ladder
over the coarse type, MIME string and extension), returning the refined type
and the OCR-needed flag. -/
def classify_file (coarse : String) (mime : String) (ext : String)
    (probe : ProbeOutcome) : RefinedType × Bool :=
  if coarse = "excel" ∨ ext ∈ [".xlsx", ".xls"] then (.excel, false)
  else if coarse = "word" ∨ ext ∈ [".docx", ".doc"] then (.word, false)
  else if coarse = "text" ∨ ext ∈ [".txt", ".md"] then (.text, false)
  else if coarse = "image" ∨ ("image/".toList).isPrefixOf mime.toList ∨
      ext ∈ [".png", ".jpg", ".jpeg", ".tiff"] then (.image, true)
  else if mime = "application/pdf" ∨ ext = ".pdf" ∨ coarse = "pdf" then
    ((_probe_pdf probe).1, (_probe_pdf probe).2.1)
  else (.unknown, false)

/-! ## Router lemmas -/

/-- Every engine result is attributed to the invoked engine. -/
theorem run_model_engine (env : Env) (config : OCRConfig) (e : Engine) :
    (run_model env config e).engine = e := by
  cases e with
  | docai =>
    cases hd : env.docai <;> simp [run_model, run_docai, _parse_docai_response, hd]
  | vision =>
    cases hv : env.vision with
    | exn msg => simp [run_model, run_vision, hv]
    | response errMsg annText pages =>
      simp only [run_model, run_vision, hv]
      split <;> simp
  | tesseract =>
    cases ht : env.tess <;> simp [run_model, run_tesseract, ht]

/-- A successful engine result carries no warnings (every success path in the
engines constructs `warnings=[]`, and the one warning-bearing path fails). -/
theorem run_model_success_warnings (env : Env) (config : OCRConfig) (e : Engine)
    (h : (run_model env config e).error = "") :
    (run_model env config e).warnings = [] := by
  cases e with
  | docai =>
    cases hd : env.docai with
    | envMissing => simp [run_model, run_docai, hd] at h
    | exn msg => simp [run_model, run_docai, hd]
    | ok docText pages => simp [run_model, run_docai, _parse_docai_response, hd]
  | vision =>
    cases hv : env.vision with
    | exn msg => simp [run_model, run_vision, hv]
    | response errMsg annText pages =>
      simp only [run_model, run_vision, hv]
      split <;> simp
  | tesseract =>
    cases ht : env.tess <;> simp [run_model, run_tesseract, ht]

/-- Unfolding of the loop on first success: if the first `k` engines of the
list fail and the `k`-th succeeds, the loop returns the successful result with
the accumulated tags appended after its own warnings. -/
theorem routerLoop_success (env : Env) (config : OCRConfig) :
    ∀ (p : List Engine) (acc : List String) (le : String) (k : Nat) (hk : k < p.length),
    (∀ j (hj : j < k), (run_model env config (p.get ⟨j, lt_trans hj hk⟩)).error ≠ "") →
    (run_model env config (p.get ⟨k, hk⟩)).error = "" →
    routerLoop env config p acc le =
      { run_model env config (p.get ⟨k, hk⟩) with
        warnings := (run_model env config (p.get ⟨k, hk⟩)).warnings ++
          (acc ++ (p.take k).map (fun m => failTag m (run_model env config m).error)) } := by
  intro p
  induction p with
  | nil => intro acc le k hk; exact absurd hk (by simp)
  | cons m rest ih =>
    intro acc le k hk hfail hsucc
    cases k with
    | zero =>
      have hs : (run_model env config m).error = "" := by simpa using hsucc
      simp only [routerLoop, if_pos hs, List.take_zero, List.map_nil,
        List.append_nil, List.get]
      by_cases hacc : acc = []
      · subst hacc
        simp
      · simp [hacc]
    | succ k' =>
      have hfail0 : (run_model env config m).error ≠ "" := by
        have := hfail 0 (Nat.succ_pos k')
        simpa using this
      have hk' : k' < rest.length := Nat.lt_of_succ_lt_succ hk
      have hsucc' : (run_model env config (rest.get ⟨k', hk'⟩)).error = "" := by
        simpa using hsucc
      have hfail' : ∀ j (hj : j < k'),
          (run_model env config (rest.get ⟨j, lt_trans hj hk'⟩)).error ≠ "" := by
        intro j hj
        have := hfail (j + 1) (Nat.succ_lt_succ hj)
        simpa using this
      simp only [routerLoop, if_neg hfail0]
      rw [ih (acc ++ [failTag m (run_model env config m).error])
        (run_model env config m).error k' hk' hfail' hsucc']
      simp [List.append_assoc]

/-- Unfolding of the loop when every engine in the nonempty list fails. -/
theorem routerLoop_allFail (env : Env) (config : OCRConfig) :
    ∀ (p : List Engine) (acc : List String) (le : String) (hne : p ≠ []),
    (∀ e ∈ p, (run_model env config e).error ≠ "") →
    routerLoop env config p acc le =
      { text := ""
        engine := config.engine_priority.head?.getD .docai
        pages_processed := 0
        avg_confidence := none
        language_codes := []
        warnings := acc ++ p.map (fun m => failTag m (run_model env config m).error)
        error := (run_model env config (p.getLast hne)).error } := by
  intro p
  induction p with
  | nil => intro acc le hne; exact absurd rfl hne
  | cons m rest ih =>
    intro acc le hne hfail
    have hm : (run_model env config m).error ≠ "" := hfail m (by simp)
    simp only [routerLoop, if_neg hm]
    cases rest with
    | nil =>
      simp [routerLoop, hm]
    | cons b t =>
      rw [ih (acc ++ [failTag m (run_model env config m).error])
        (run_model env config m).error (by simp) (fun e he => hfail e (by simp [he]))]
      simp [List.getLast_cons, List.append_assoc]

/-- `run_vision` reads the configuration only through the language hints. -/
theorem run_vision_config (o : VisionOutcome) (cfg1 cfg2 : OCRConfig)
    (h : cfg1.language_hints = cfg2.language_hints) :
    run_vision o cfg1 = run_vision o cfg2 := by
  have hh : hintsOf cfg1 = hintsOf cfg2 := by simp [hintsOf, h]
  cases o with
  | exn msg => simp [run_vision, hh]
  | response errMsg annText pages =>
    simp only [run_vision]
    split <;> simp [hh]

/-- `run_tesseract` reads the configuration only through the tesseract
language (the psm/oem/dpi tuning only shapes the external call itself). -/
theorem run_tesseract_config (o : TessOutcome) (cfg1 cfg2 : OCRConfig)
    (h : cfg1.tesseract_lang = cfg2.tesseract_lang) :
    run_tesseract o cfg1 = run_tesseract o cfg2 := by
  have hh : tessLangs cfg1 = tessLangs cfg2 := by simp [tessLangs, h]
  cases o <;> simp [run_tesseract, hh]

/-- Engine dispatch under two configurations agreeing on the fields the
engines read. -/
theorem run_model_config (env : Env) (cfg1 cfg2 : OCRConfig)
    (hlh : cfg1.language_hints = cfg2.language_hints)
    (ht : cfg1.tesseract_lang = cfg2.tesseract_lang) (m : Engine) :
    run_model env cfg1 m = run_model env cfg2 m := by
  cases m with
  | docai => rfl
  | vision => exact run_vision_config env.vision cfg1 cfg2 hlh
  | tesseract => exact run_tesseract_config env.tess cfg1 cfg2 ht

/-- The loop only reads the configuration through `run_model` and the
attribution head of `engine_priority`. -/
theorem routerLoop_congr (env : Env) (cfg1 cfg2 : OCRConfig)
    (hhead : cfg1.engine_priority.head?.getD Engine.docai =
      cfg2.engine_priority.head?.getD Engine.docai)
    (hrm : ∀ m, run_model env cfg1 m = run_model env cfg2 m) :
    ∀ (p : List Engine) (acc : List String) (le : String),
    routerLoop env cfg1 p acc le = routerLoop env cfg2 p acc le := by
  intro p
  induction p with
  | nil => intro acc le; simp [routerLoop, hhead]
  | cons m rest ih =>
    intro acc le
    simp only [routerLoop, hrm]
    by_cases hm : (run_model env cfg2 m).error = ""
    · simp [hm]
    · simp [hm, ih]

/-! ## Claim theorems: OCR router -/

/-- C1: if every engine before position `k` of a nonempty `engine_priority`
fails and the engine at position `k` succeeds, the router returns that
successful result, attributed to the succeeding engine, with the failure tags
of the previously tried engines (in attempt order) prepended to its warning
list. -/
theorem ocr_router_first_success (env : Env) (config : OCRConfig) (t : RefinedType)
    (hne : config.engine_priority ≠ [])
    (ht : t = RefinedType.pdf_scanned ∨ t = RefinedType.image)
    (k : Nat) (hk : k < config.engine_priority.length)
    (hfail : ∀ j (hj : j < k),
      (run_model env config (config.engine_priority.get ⟨j, lt_trans hj hk⟩)).error ≠ "")
    (hsucc : (run_model env config (config.engine_priority.get ⟨k, hk⟩)).error = "") :
    ocr_router env t config =
      { run_model env config (config.engine_priority.get ⟨k, hk⟩) with
        warnings :=
          (config.engine_priority.take k).map
            (fun m => failTag m (run_model env config m).error) ++
          (run_model env config (config.engine_priority.get ⟨k, hk⟩)).warnings } ∧
    (ocr_router env t config).engine = config.engine_priority.get ⟨k, hk⟩ := by
  have hcond : ¬ ¬ (t = RefinedType.pdf_scanned ∨ t = RefinedType.image) := not_not_intro ht
  have hie : config.engine_priority.isEmpty = false := by
    simpa [List.isEmpty_iff] using hne
  have hloop := routerLoop_success env config config.engine_priority [] "" k hk hfail hsucc
  have hwnil := run_model_success_warnings env config
    (config.engine_priority.get ⟨k, hk⟩) hsucc
  have hmain : ocr_router env t config =
      { run_model env config (config.engine_priority.get ⟨k, hk⟩) with
        warnings :=
          (config.engine_priority.take k).map
            (fun m => failTag m (run_model env config m).error) ++
          (run_model env config (config.engine_priority.get ⟨k, hk⟩)).warnings } := by
    simp only [ocr_router, if_neg hcond, hie]
    rw [if_neg (by simp)]
    rw [hloop, hwnil]
    simp
  refine ⟨hmain, ?_⟩
  rw [hmain]
  exact run_model_engine env config _

/-- C2: if the priority list is nonempty and every configured engine fails,
the router returns a synthetic result with empty text, attributed to the first
configured engine, error equal to the last engine's (nonempty) error, and one
failure tag per configured engine in attempt order. -/
theorem ocr_router_total_failure (env : Env) (config : OCRConfig) (t : RefinedType)
    (hne : config.engine_priority ≠ [])
    (ht : t = RefinedType.pdf_scanned ∨ t = RefinedType.image)
    (hfail : ∀ e ∈ config.engine_priority, (run_model env config e).error ≠ "") :
    ocr_router env t config =
      { text := ""
        engine := config.engine_priority.head hne
        pages_processed := 0
        avg_confidence := none
        language_codes := []
        warnings := config.engine_priority.map
          (fun m => failTag m (run_model env config m).error)
        error := (run_model env config (config.engine_priority.getLast hne)).error } ∧
    (ocr_router env t config).error ≠ "" ∧
    (ocr_router env t config).warnings.length = config.engine_priority.length := by
  have hcond : ¬ ¬ (t = RefinedType.pdf_scanned ∨ t = RefinedType.image) := not_not_intro ht
  have hie : config.engine_priority.isEmpty = false := by
    simpa [List.isEmpty_iff] using hne
  have hloop := routerLoop_allFail env config config.engine_priority [] "" hne hfail
  have hmain : ocr_router env t config =
      { text := ""
        engine := config.engine_priority.head hne
        pages_processed := 0
        avg_confidence := none
        language_codes := []
        warnings := config.engine_priority.map
          (fun m => failTag m (run_model env config m).error)
        error := (run_model env config (config.engine_priority.getLast hne)).error } := by
    simp only [ocr_router, if_neg hcond, hie]
    rw [if_neg (by simp)]
    rw [hloop]
    simp [List.head?_eq_head hne]
  refine ⟨hmain, ?_, ?_⟩
  · rw [hmain]
    exact hfail _ (List.getLast_mem hne)
  · rw [hmain]
    simp

/-- C8: for any refined type that does not require OCR the router immediately
returns the no-op result: empty text, no error, and a single informational
warning, for every file environment and configuration. -/
theorem ocr_router_noop (env : Env) (config : OCRConfig) (t : RefinedType)
    (h1 : t ≠ RefinedType.pdf_scanned) (h2 : t ≠ RefinedType.image) :
    ocr_router env t config =
      { text := ""
        engine := config.engine_priority.head?.getD .docai
        pages_processed := 0
        avg_confidence := none
        language_codes := []
        warnings := ["OCR not required for this type"]
        error := "" } := by
  simp only [ocr_router]
  rw [if_pos (not_or.mpr ⟨h1, h2⟩)]

/-- C9: the router's behaviour is entirely independent of `ocr_timeout_sec`:
no engine invocation is wrapped with any timeout (the configured value is
never read), so a timeout cannot be what advances the fallback chain. -/
theorem ocr_router_ignores_timeout (env : Env) (config : OCRConfig)
    (t : RefinedType) (n : Nat) :
    ocr_router env t { config with ocr_timeout_sec := n } = ocr_router env t config := by
  by_cases ht : t = RefinedType.pdf_scanned ∨ t = RefinedType.image
  · simp only [ocr_router, if_neg (not_not_intro ht)]
    rw [routerLoop_congr env { config with ocr_timeout_sec := n } config rfl
      (run_model_config env { config with ocr_timeout_sec := n } config rfl rfl)]
  · simp only [ocr_router, if_pos ht]

/-- C10: with an empty `engine_priority` the router behaves exactly as if the
priority list were the fixed default chain docai, vision, tesseract, and both
the no-op result and the total-failure result are attributed to docai. -/
theorem ocr_router_default_chain (env : Env) (t : RefinedType) (config : OCRConfig)
    (h : config.engine_priority = []) :
    ocr_router env t config =
      ocr_router env t { config with engine_priority := [.docai, .vision, .tesseract] } ∧
    (¬ (t = RefinedType.pdf_scanned ∨ t = RefinedType.image) →
      (ocr_router env t config).engine = Engine.docai) ∧
    ((t = RefinedType.pdf_scanned ∨ t = RefinedType.image) →
      (∀ e ∈ [Engine.docai, Engine.vision, Engine.tesseract],
        (run_model env config e).error ≠ "") →
      (ocr_router env t config).engine = Engine.docai) := by
  refine ⟨?_, ?_, ?_⟩
  · by_cases ht : t = RefinedType.pdf_scanned ∨ t = RefinedType.image
    · simp only [ocr_router, if_neg (not_not_intro ht), h]
      rw [routerLoop_congr env { config with engine_priority := [.docai, .vision, .tesseract] }
        config (by simp [h]) (run_model_config env _ config rfl rfl)]
      simp
    · simp only [ocr_router, if_pos ht, h]
      simp
  · intro ht
    rw [ocr_router_noop env config t (fun hx => ht (Or.inl hx)) (fun hx => ht (Or.inr hx))]
    simp [h]
  · intro ht hfail
    have hcond : ¬ ¬ (t = RefinedType.pdf_scanned ∨ t = RefinedType.image) :=
      not_not_intro ht
    have hie : config.engine_priority.isEmpty = true := by simp [h]
    have hloop := routerLoop_allFail env config [.docai, .vision, .tesseract] [] ""
      (by simp) hfail
    simp only [ocr_router, if_neg hcond, hie, if_pos]
    rw [hloop]
    simp [h]

/-! ## Concrete router scenarios (witness data) -/

/-- A configuration with priority docai, vision. -/
def cfgW : OCRConfig :=
  { engine_priority := [.docai, .vision]
    language_hints := none
    vision_batch_size := 2
    tesseract_lang := "eng"
    tesseract_psm := 3
    tesseract_oem := 1
    tesseract_dpi := 300
    ocr_max_pages := none
    ocr_timeout_sec := 180
    enable_preprocess := true }

/-- An environment where docai raises, vision succeeds and tesseract raises. -/
def envW : Env :=
  { docai := .exn "boom"
    vision := .response "" "hello" []
    tess := .exn "tess boom" }

/-- An environment where every engine fails. -/
def envF : Env :=
  { docai := .exn "derr"
    vision := .exn "verr"
    tess := .exn "terr" }

/-- A configuration with the full three-engine priority list. -/
def cfgF : OCRConfig :=
  { cfgW with engine_priority := [.docai, .vision, .tesseract] }

/-- A configuration with an empty priority list. -/
def cfgE : OCRConfig :=
  { cfgW with engine_priority := [] }

/-- Witness for C1: docai fails with "boom", vision succeeds; the router
returns vision's result with the docai failure tag prepended. -/
theorem ocr_router_first_success_witness :
    ocr_router envW RefinedType.pdf_scanned cfgW =
      { text := "hello", engine := .vision, pages_processed := 0, avg_confidence := none
        language_codes := [], warnings := ["docai_failed:boom"], error := "" } ∧
    (ocr_router envW RefinedType.pdf_scanned cfgW).engine = Engine.vision := by
  have h := ocr_router_first_success envW cfgW RefinedType.pdf_scanned (by decide)
    (Or.inl rfl) 1 (by decide)
    (fun j hj => by
      have hj0 : j = 0 := by omega
      subst hj0
      exact (by decide : (run_model envW cfgW Engine.docai).error ≠ ""))
    (by decide)
  exact ⟨h.1.trans (by decide), h.2.trans (by decide)⟩

/-- Witness for C2: all three engines fail; the router reports the synthetic
all-failed result with three tags and the last engine's error. -/
theorem ocr_router_total_failure_witness :
    ocr_router envF RefinedType.image cfgF =
      { text := "", engine := .docai, pages_processed := 0, avg_confidence := none
        language_codes := []
        warnings := ["docai_failed:derr", "vision_failed:verr", "tesseract_failed:terr"]
        error := "terr" } ∧
    (ocr_router envF RefinedType.image cfgF).error ≠ "" ∧
    (ocr_router envF RefinedType.image cfgF).warnings.length = 3 := by
  have h := ocr_router_total_failure envF cfgF RefinedType.image (by decide)
    (Or.inr rfl)
    (fun e he => by
      have h3 : cfgF.engine_priority = [.docai, .vision, .tesseract] := rfl
      rw [h3] at he
      simp only [List.mem_cons, List.not_mem_nil, or_false] at he
      rcases he with rfl | rfl | rfl <;> decide)
  exact ⟨h.1.trans (by decide), h.2.1, h.2.2.trans (by decide)⟩

/-- Witness for C8: a word document never enters the OCR chain. -/
theorem ocr_router_noop_witness :
    ocr_router envF RefinedType.word cfgF =
      { text := "", engine := .docai, pages_processed := 0, avg_confidence := none
        language_codes := [], warnings := ["OCR not required for this type"]
        error := "" } := by
  have h := ocr_router_noop envF cfgF RefinedType.word (by decide) (by decide)
  exact h.trans (by decide)

/-- Witness for C10: with an empty priority list the router runs the default
chain and attributes docai in the no-op and total-failure cases. -/
theorem ocr_router_default_chain_witness :
    ocr_router envF RefinedType.pdf_scanned cfgE =
      ocr_router envF RefinedType.pdf_scanned
        { cfgE with engine_priority := [.docai, .vision, .tesseract] } ∧
    (ocr_router envF RefinedType.text cfgE).engine = Engine.docai ∧
    (ocr_router envF RefinedType.pdf_scanned cfgE).engine = Engine.docai := by
  have h1 := ocr_router_default_chain envF RefinedType.pdf_scanned cfgE rfl
  have h2 := ocr_router_default_chain envF RefinedType.text cfgE rfl
  refine ⟨h1.1, h2.2.1 (by decide), h1.2.2 (Or.inl rfl) ?_⟩
  intro e he
  simp only [List.mem_cons, List.not_mem_nil, or_false] at he
  rcases he with rfl | rfl | rfl <;> decide

/-! ## Claim theorem: type classifier -/

/-- C7: a file that reaches the PDF branch of the classifier is classified by
probing: a parse failure yields corrupted; an encrypted document yields
encrypted without OCR; otherwise the first three pages are sampled and any
non-blank extracted text yields pdf_text without OCR, else pdf_scanned with
OCR required. -/
theorem classify_pdf_probe (coarse mime ext : String) (probe : ProbeOutcome)
    (h1 : ¬ (coarse = "excel" ∨ ext ∈ [".xlsx", ".xls"]))
    (h2 : ¬ (coarse = "word" ∨ ext ∈ [".docx", ".doc"]))
    (h3 : ¬ (coarse = "text" ∨ ext ∈ [".txt", ".md"]))
    (h4 : ¬ (coarse = "image" ∨ ("image/".toList).isPrefixOf mime.toList ∨
      ext ∈ [".png", ".jpg", ".jpeg", ".tiff"]))
    (h5 : mime = "application/pdf" ∨ ext = ".pdf" ∨ coarse = "pdf") :
    classify_file coarse mime ext probe = ((_probe_pdf probe).1, (_probe_pdf probe).2.1) ∧
    _probe_pdf ProbeOutcome.failure = (RefinedType.corrupted, false, false) ∧
    (∀ doc : PdfDoc, doc.is_encrypted = true →
      _probe_pdf (ProbeOutcome.ok doc) = (RefinedType.encrypted, false, false)) ∧
    (∀ doc : PdfDoc, doc.is_encrypted = false →
      ((doc.pages.take 3).any (fun p => !(stripChars p).isEmpty) = true →
        _probe_pdf (ProbeOutcome.ok doc) = (RefinedType.pdf_text, false, true)) ∧
      ((doc.pages.take 3).any (fun p => !(stripChars p).isEmpty) = false →
        _probe_pdf (ProbeOutcome.ok doc) = (RefinedType.pdf_scanned, true, true))) := by
  have hsample : ∀ doc : PdfDoc,
      (if doc.pages.length > 3 then doc.pages.take 3 else doc.pages) = doc.pages.take 3 := by
    intro doc
    by_cases hlen : doc.pages.length > 3
    · rw [if_pos hlen]
    · rw [if_neg hlen]
      rw [List.take_of_length_le (by omega)]
  refine ⟨?_, rfl, ?_, ?_⟩
  · simp only [classify_file, if_neg h1, if_neg h2, if_neg h3, if_neg h4, if_pos h5]
  · intro doc henc
    simp [_probe_pdf, henc]
  · intro doc henc
    constructor
    · intro hany
      simp [_probe_pdf, henc, hsample doc, hany]
    · intro hany
      simp [_probe_pdf, henc, hsample doc, hany]

/-- Witness for C7: an unclassified .pdf file whose first page has a text
layer is classified pdf_text with no OCR needed. -/
theorem classify_pdf_probe_witness :
    classify_file "unknown" "application/pdf" ".pdf"
      (ProbeOutcome.ok { is_encrypted := false, pages := ["hi".toList] }) =
      (RefinedType.pdf_text, false) := by
  have h := classify_pdf_probe "unknown" "application/pdf" ".pdf"
    (ProbeOutcome.ok { is_encrypted := false, pages := ["hi".toList] })
    (by decide) (by decide) (by decide) (by decide) (Or.inl rfl)
  exact h.1.trans (by decide)

/-! ## Bullet split (`re.split(BULLET_PATTERN, ...)` in `chunking.py`) -/

/-- Expect one specific character. -/
def expectChar (c : Char) : List Char → Option (List Char)
  | [] => none
  | d :: cs => if d = c then some cs else none

/-- Match one-or-more characters of a class, maximally (`p+`), returning the
rest. -/
def many1Drop (p : Char → Bool) : List Char → Option (List Char)
  | [] => none
  | c :: cs => if p c then some (cs.dropWhile p) else none

/-- Lowercase roman-numeral letters (`[ivxlcdm]`). -/
def isRomanLower (c : Char) : Bool := c ∈ ['i', 'v', 'x', 'l', 'c', 'd', 'm']

/-- Bullet alternative `\([a-zA-Z0-9]+\)`. -/
def bulletAlt1 (cs : List Char) : Option (List Char) :=
  (expectChar '(' cs).bind (fun r => (many1Drop Char.isAlphanum r).bind (expectChar ')'))

/-- Bullet alternative `\d+\.\d+`. -/
def bulletAlt2 (cs : List Char) : Option (List Char) :=
  (many1Drop Char.isDigit cs).bind (fun r => (expectChar '.' r).bind (many1Drop Char.isDigit))

/-- Bullet alternative `\d+\)`. -/
def bulletAlt3 (cs : List Char) : Option (List Char) :=
  (many1Drop Char.isDigit cs).bind (expectChar ')')

/-- Bullet alternative `[ivxlcdm]+\)`. -/
def bulletAlt4 (cs : List Char) : Option (List Char) :=
  (many1Drop isRomanLower cs).bind (expectChar ')')

/-- The trailing `\s+` of the bullet pattern; also reports whether the last
consumed whitespace character is a newline (so the caller knows whether the
position after the match is a line start). -/
def wsPlusInfo : List Char → Option (Bool × List Char)
  | [] => none
  | c :: cs =>
    if isWSb c then
      some (decide (((c :: cs).takeWhile isWSb).getLast? = some '\n'),
        (c :: cs).dropWhile isWSb)
    else none

/-- A bullet-pattern match at a line start: `\s*` then one alternative (tried
in pattern order, falling through when the trailing `\s+` fails) then `\s+`.
Returns the line-start flag for the following position and the rest. -/
def bulletAfterWS (cs : List Char) : Option (Bool × List Char) :=
  ((bulletAlt1 (cs.dropWhile isWSb)).bind wsPlusInfo) <|>
  ((bulletAlt2 (cs.dropWhile isWSb)).bind wsPlusInfo) <|>
  ((bulletAlt3 (cs.dropWhile isWSb)).bind wsPlusInfo) <|>
  ((bulletAlt4 (cs.dropWhile isWSb)).bind wsPlusInfo)

theorem dropWhile_length_le (p : Char → Bool) (l : List Char) :
    (l.dropWhile p).length ≤ l.length := by
  induction l with
  | nil => simp
  | cons c cs ih =>
    by_cases h : p c
    · simp only [List.dropWhile_cons, h, if_true]
      exact le_trans ih (Nat.le_succ _)
    · simp [List.dropWhile_cons, h]

theorem expectChar_length {c : Char} {l r : List Char} (h : expectChar c l = some r) :
    r.length < l.length := by
  cases l with
  | nil => simp [expectChar] at h
  | cons d cs =>
    simp only [expectChar] at h
    split at h
    · cases h; simp
    · cases h

theorem many1Drop_length {p : Char → Bool} {l r : List Char}
    (h : many1Drop p l = some r) : r.length < l.length := by
  cases l with
  | nil => simp [many1Drop] at h
  | cons c cs =>
    simp only [many1Drop] at h
    split at h
    · cases h
      exact Nat.lt_succ_of_le (dropWhile_length_le p cs)
    · cases h

theorem wsPlusInfo_length {l : List Char} {b : Bool} {r : List Char}
    (h : wsPlusInfo l = some (b, r)) : r.length < l.length := by
  cases l with
  | nil => simp [wsPlusInfo] at h
  | cons c cs =>
    simp only [wsPlusInfo] at h
    split at h
    · cases h
      simp only [List.dropWhile_cons]
      rename_i hc
      simp only [hc, if_true]
      exact Nat.lt_succ_of_le (dropWhile_length_le isWSb cs)
    · cases h

theorem bulletAlt1_length {l r : List Char} (h : bulletAlt1 l = some r) :
    r.length < l.length := by
  rcases Option.bind_eq_some.mp h with ⟨t1, h1, h2⟩
  rcases Option.bind_eq_some.mp h2 with ⟨t2, h3, h4⟩
  exact lt_trans (lt_trans (expectChar_length h4) (many1Drop_length h3))
    (expectChar_length h1)

theorem bulletAlt2_length {l r : List Char} (h : bulletAlt2 l = some r) :
    r.length < l.length := by
  rcases Option.bind_eq_some.mp h with ⟨t1, h1, h2⟩
  rcases Option.bind_eq_some.mp h2 with ⟨t2, h3, h4⟩
  exact lt_trans (lt_trans (many1Drop_length h4) (expectChar_length h3))
    (many1Drop_length h1)

theorem bulletAlt3_length {l r : List Char} (h : bulletAlt3 l = some r) :
    r.length < l.length := by
  rcases Option.bind_eq_some.mp h with ⟨t1, h1, h2⟩
  exact lt_trans (expectChar_length h2) (many1Drop_length h1)

theorem bulletAlt4_length {l r : List Char} (h : bulletAlt4 l = some r) :
    r.length < l.length := by
  rcases Option.bind_eq_some.mp h with ⟨t1, h1, h2⟩
  exact lt_trans (expectChar_length h2) (many1Drop_length h1)

theorem bulletAfterWS_length {l : List Char} {b : Bool} {r : List Char}
    (h : bulletAfterWS l = some (b, r)) : r.length < l.length := by
  have step : ∀ (alt : List Char → Option (List Char)),
      (∀ {x y : List Char}, alt x = some y → y.length < x.length) →
      (alt (l.dropWhile isWSb)).bind wsPlusInfo = some (b, r) → r.length < l.length := by
    intro alt haltlen halt
    rcases Option.bind_eq_some.mp halt with ⟨t, h1, h2⟩
    exact lt_of_lt_of_le
      (lt_trans (wsPlusInfo_length h2) (haltlen h1))
      (dropWhile_length_le isWSb l)
  have orCases : ∀ (x y : Option (Bool × List Char)),
      (x <|> y) = some (b, r) → x = some (b, r) ∨ y = some (b, r) := by
    intro x y hxy
    cases x with
    | none => right; simpa using hxy
    | some v => left; simpa using hxy
  simp only [bulletAfterWS] at h
  rcases orCases _ _ h with h1 | h1
  · exact step bulletAlt1 (fun hx => bulletAlt1_length hx) h1
  rcases orCases _ _ h1 with h2 | h2
  · exact step bulletAlt2 (fun hx => bulletAlt2_length hx) h2
  rcases orCases _ _ h2 with h3 | h3
  · exact step bulletAlt3 (fun hx => bulletAlt3_length hx) h3
  · exact step bulletAlt4 (fun hx => bulletAlt4_length hx) h3

/-- The scanning loop of `re.split`: at each line-start position try the
bullet pattern; on a match, close the current piece and continue after the
match; otherwise move one character forward.  The extra fuel argument only
makes the recursion structural: every step strictly shortens the input
(`bulletAfterWS_length`), so with fuel = input length the fuel-exhausted
branch coincides with the end-of-input branch. -/
def bulletSplitAux : Nat → List Char → Bool → List Char → List (List Char) →
    List (List Char)
  | 0, _, _, cur, acc => acc ++ [cur]
  | fuel + 1, cs, lineStart, cur, acc =>
    match (if lineStart then bulletAfterWS cs else none) with
    | some br => bulletSplitAux fuel br.2 br.1 [] (acc ++ [cur])
    | none =>
      match cs with
      | [] => acc ++ [cur]
      | c :: rest => bulletSplitAux fuel rest (decide (c = '\n')) (cur ++ [c]) acc

/-- `re.split(BULLET_PATTERN, text)`. -/
def bulletSplit (text : List Char) : List (List Char) :=
  bulletSplitAux text.length text true [] []

/-! ## Token-bounded chunker (`chunk_section`) -/

/-- State of the accumulation loop: emitted chunks, the current buffer, and
the running token counter. -/
structure ChunkState where
  chunks : List (List Char)
  current : List (List Char)
  current_tokens : Nat
deriving DecidableEq, Repr

/-- Python negative slice `lst[-n:]` (note `lst[-0:]` is the whole list). -/
def pyTail (n : Nat) (l : List (List Char)) : List (List Char) :=
  if n = 0 then l else l.drop (l.length - n)

/-- The flush step at the top of `push_current`: append the buffer's joined,
stripped text to the chunks when it is non-blank. -/
def flushChunks (st : ChunkState) : List (List Char) :=
  if st.current.isEmpty then st.chunks
  else
    if (stripChars (joinSpace st.current)).isEmpty then st.chunks
    else st.chunks ++ [stripChars (joinSpace st.current)]

/-- The overlap tail seeded from the previous chunk: its last
`min_overlap_tokens` words, or the whole chunk when it is short
(`last_tokens[-min_overlap_tokens:]`). -/
def overlapOf (omin : Nat) (last : List Char) : List Char :=
  if (wordsOf last).length > omin then joinSpace (pyTail omin (wordsOf last)) else last

/-- `push_current(next_part)` from `chunk_section`: flush the buffer as a
chunk (when its joined text is non-blank) and, when a next part is given and
chunks exist, seed the new buffer with the overlap tail of the last chunk. -/
def pushCurrent (omin : Nat) (st : ChunkState) (next_part : Option (List Char)) :
    ChunkState :=
  match next_part with
  | some p =>
    match (flushChunks st).getLast? with
    | some last =>
      { chunks := flushChunks st
        current := [overlapOf omin last, p]
        current_tokens := estimate_tokens (overlapOf omin last) + estimate_tokens p }
    | none => { chunks := flushChunks st, current := [], current_tokens := 0 }
  | none => { chunks := flushChunks st, current := [], current_tokens := 0 }

/-- One non-blank part appended to the buffer, or flushed with overlap on
overflow (the first branch of the loop body). -/
def chunkAdd (tmax omin : Nat) (st : ChunkState) (part : List Char) : ChunkState :=
  if st.current_tokens + estimate_tokens part > tmax ∧ ¬ st.current.isEmpty then
    pushCurrent omin st (some part)
  else
    { st with
      current := st.current ++ [part]
      current_tokens := st.current_tokens + estimate_tokens part }

/-- One loop iteration for a non-blank part: `chunkAdd` followed by the
force-flush check against `target_max + 200`. -/
def chunkStep (tmax omin : Nat) (st : ChunkState) (part : List Char) : ChunkState :=
  if (chunkAdd tmax omin st part).current_tokens > tmax + 200 then
    pushCurrent omin (chunkAdd tmax omin st part) none
  else chunkAdd tmax omin st part

/-- The part-accumulation loop of `chunk_section`: strip each part, skip
blank parts, and run `chunkStep` on the rest. -/
def chunkLoop (tmax omin : Nat) : List (List Char) → ChunkState → ChunkState
  | [], st => st
  | p :: rest, st =>
    if (stripChars p).isEmpty then chunkLoop tmax omin rest st
    else chunkLoop tmax omin rest (chunkStep tmax omin st (stripChars p))

/-- The undersized-merge pass of `chunk_section` (merge adjacent chunks that
are both below the minimum). -/
def mergeAux (tmin : Nat) : List (List Char) → List (List Char) → List (List Char)
  | merged, [] => merged
  | merged, ch :: rest =>
    match merged.getLast? with
    | none => mergeAux tmin [ch] rest
    | some m =>
      if estimate_tokens m < tmin ∧ estimate_tokens ch < tmin then
        mergeAux tmin (merged.dropLast ++ [m ++ ' ' :: ch]) rest
      else mergeAux tmin (merged ++ [ch]) rest

/-- The merge pass applied to a chunk list. -/
def mergePass (tmin : Nat) (chunks : List (List Char)) : List (List Char) :=
  mergeAux tmin [] chunks

/-- The part list of `chunk_section`: the bullet split, or the whole text
when the split found no boundary. -/
def partsOf (section_text : List Char) : List (List Char) :=
  if (bulletSplit section_text).length ≤ 1 then [section_text]
  else bulletSplit section_text

/-- The final flush at the end of the part loop (`if current: push_current()`). -/
def finalState (omin : Nat) (st : ChunkState) : ChunkState :=
  if st.current.isEmpty then st else pushCurrent omin st none

/-- `chunk_section(section_text, tmin, tmax, omin, omax)`; `omax`
(`max_overlap_tokens`) is accepted and never read, as in the source. -/
def chunk_section (section_text : List Char) (tmin tmax omin omax : Nat) :
    List (List Char) :=
  mergePass tmin
    (finalState omin (chunkLoop tmax omin (partsOf section_text) ⟨[], [], 0⟩)).chunks

/-! ## Section splitter (`split_sections`) -/

/-- Case-insensitive literal match (patterns given in lowercase). -/
def litCI : List Char → List Char → Option (List Char)
  | [], cs => some cs
  | _ :: _, [] => none
  | p :: ps, c :: cs => if c.toLower = p then litCI ps cs else none

/-- `[IVXLC]` case-insensitively. -/
def isRomanUpperCI (c : Char) : Bool := c.toLower ∈ ['i', 'v', 'x', 'l', 'c']

/-- The regex class `\w`. -/
def isWordChar (c : Char) : Bool := c.isAlphanum || c = '_'

/-- Keyword alternatives of the section pattern: keyword, `\s+`, then
one-or-more characters of a class (the trailing `(?:\.\d+)*` groups can match
empty, so existence needs only this base). -/
def kwNum (kw : List Char) (digits : Char → Bool) (cs : List Char) : Bool :=
  match (litCI kw cs).bind (many1Drop isWSb) with
  | some r => (many1Drop digits r).isSome
  | none => false

/-- Consume `(?:\.[0-9]+)*` maximally.  The fuel argument only makes the
recursion structural; each step strictly shortens the input, so fuel = input
length never runs out before the input does. -/
def dotDigitGroups : Nat → List Char → List Char
  | 0, cs => cs
  | fuel + 1, cs =>
    match cs with
    | '.' :: rest =>
      match many1Drop Char.isDigit rest with
      | some r => dotDigitGroups fuel r
      | none => cs
    | _ => cs

/-- The class `[A-Z ]` under IGNORECASE. -/
def isHeadingChar (c : Char) : Bool := c.isAlpha || c = ' '

/-- Alternative `[0-9]+(?:\.[0-9]+)*\s+[A-Z][A-Z ]{3,}` (IGNORECASE). -/
def numHeadingAlt (cs : List Char) : Bool :=
  match many1Drop Char.isDigit cs with
  | some r1 =>
    match many1Drop isWSb (dotDigitGroups r1.length r1) with
    | some r2 =>
      match r2 with
      | c :: rest => c.isAlpha && decide (3 ≤ (rest.takeWhile isHeadingChar).length)
      | [] => false
    | none => false
  | none => false

/-- The alternation of SECTION_BOUNDARY_PATTERN after `(?:^|\n)\s*`. -/
def sectionMarker (cs : List Char) : Bool :=
  kwNum "section".toList Char.isDigit (cs.dropWhile isWSb) ||
  kwNum "article".toList isRomanUpperCI (cs.dropWhile isWSb) ||
  kwNum "clause".toList Char.isDigit (cs.dropWhile isWSb) ||
  kwNum "exhibit".toList Char.isAlpha (cs.dropWhile isWSb) ||
  kwNum "schedule".toList isWordChar (cs.dropWhile isWSb) ||
  numHeadingAlt (cs.dropWhile isWSb)

/-- The lookahead of SECTION_BOUNDARY_PATTERN at position `i` (the pattern is
not MULTILINE, so `^` holds only at position 0; otherwise a newline is
consumed at `i`). -/
def matchesAt (text : List Char) (i : Nat) : Bool :=
  (decide (i = 0) && sectionMarker (text.drop i)) ||
  (match text.drop i with
   | '\n' :: rest => sectionMarker rest
   | _ => false)

/-- All boundary-match positions in increasing order (what
`finditer` yields for the zero-width lookahead). -/
def boundaryPositions (text : List Char) : List Nat :=
  (List.range text.length).filter (fun i => matchesAt text i)

/-- A `Section` dictionary produced by `split_sections`. -/
structure Sec where
  header : Option (List Char)
  content : List Char
  start : Nat
  stop : Nat
deriving DecidableEq, Repr

/-- The header line of a section body (`find("\n")` with an 80-character cap
when the body is a single line). -/
def headerOf (st : List Char) : List Char :=
  match st.findIdx? (fun c => decide (c = '\n')) with
  | none => st.take 80
  | some i => stripChars (st.take i)

/-- The per-pair loop of `split_sections`: slice between consecutive boundary
positions, strip, and skip blank slices. -/
def buildSecs (text : List Char) : List Nat → List Sec
  | a :: b :: rest =>
    if (stripChars (pySlice text a b)).isEmpty then buildSecs text (b :: rest)
    else
      { header := some (headerOf (stripChars (pySlice text a b)))
        content := stripChars (pySlice text a b)
        start := a
        stop := b } :: buildSecs text (b :: rest)
  | _ => []

/-- `split_sections` from `chunking.py`. -/
def split_sections (text : List Char) : List Sec :=
  if (boundaryPositions text).isEmpty then
    [{ header := none, content := stripChars text, start := 0, stop := text.length }]
  else buildSecs text (boundaryPositions text ++ [text.length])

/-! ## Word-level lemmas -/

theorem splitWSAux_append_ws (c : Char) (hc : isWSb c = true) :
    ∀ (a b cur : List Char),
    splitWSAux (a ++ c :: b) cur = splitWSAux a cur ++ splitWSAux b [] := by
  intro a
  induction a with
  | nil =>
    intro b cur
    by_cases hcur : cur.isEmpty
    · simp [splitWSAux, hc, hcur]
    · simp [splitWSAux, hc, hcur]
  | cons d a' ih =>
    intro b cur
    by_cases hd : isWSb d
    · by_cases hcur : cur.isEmpty
      · simp [splitWSAux, hd, hcur, ih]
      · simp [splitWSAux, hd, hcur, ih]
    · simp [splitWSAux, hd, ih]

/-- Words of a text split at a whitespace character. -/
theorem wordsOf_append_ws {c : Char} (hc : isWSb c = true) (a b : List Char) :
    wordsOf (a ++ c :: b) = wordsOf a ++ wordsOf b := by
  simpa [wordsOf] using splitWSAux_append_ws c hc a b []

/-- Words of a `" ".join`. -/
theorem wordsOf_joinSpace (l : List (List Char)) :
    wordsOf (joinSpace l) = (l.map wordsOf).flatten := by
  induction l with
  | nil => simp [joinSpace, wordsOf, splitWSAux]
  | cons x xs ih =>
    cases xs with
    | nil => simp [joinSpace]
    | cons y ys =>
      simp only [joinSpace, List.map_cons, List.flatten_cons]
      rw [wordsOf_append_ws (by decide) x (joinSpace (y :: ys))]
      rw [ih]
      simp

theorem wordsOf_dropWhile_ws (l : List Char) :
    wordsOf (l.dropWhile isWSb) = wordsOf l := by
  induction l with
  | nil => rfl
  | cons c cs ih =>
    by_cases hc : isWSb c
    · simpa [List.dropWhile_cons, hc, wordsOf, splitWSAux] using ih
    · simp [List.dropWhile_cons, hc]

theorem wordsOf_rdropWhile_ws (l : List Char) :
    wordsOf (l.rdropWhile isWSb) = wordsOf l := by
  induction l using List.reverseRecOn with
  | nil => rfl
  | append_singleton xs x ih =>
    by_cases hx : isWSb x
    · rw [List.rdropWhile_concat_pos isWSb xs x hx, ih]
      have : wordsOf (xs ++ x :: []) = wordsOf xs ++ wordsOf [] := wordsOf_append_ws hx xs []
      simpa [wordsOf, splitWSAux] using this.symm
    · rw [List.rdropWhile_concat_neg isWSb xs x hx]

/-- Stripping does not change the word sequence. -/
theorem wordsOf_strip (l : List Char) : wordsOf (stripChars l) = wordsOf l := by
  rw [stripChars, wordsOf_rdropWhile_ws, wordsOf_dropWhile_ws]

theorem splitWSAux_words_wf :
    ∀ (l cur : List Char), (∀ c ∈ cur, isWSb c = false) →
    ∀ w ∈ splitWSAux l cur, w ≠ [] ∧ ∀ c ∈ w, isWSb c = false := by
  intro l
  induction l with
  | nil =>
    intro cur hcur w hw
    by_cases hc : cur.isEmpty
    · simp [splitWSAux, hc] at hw
    · simp only [splitWSAux, hc, if_false] at hw
      rcases List.mem_singleton.mp hw with rfl
      refine ⟨by simpa [List.isEmpty_iff] using hc, ?_⟩
      intro c hc2
      exact hcur c (List.mem_reverse.mp hc2)
  | cons d l' ih =>
    intro cur hcur w hw
    by_cases hd : isWSb d
    · by_cases hc : cur.isEmpty
      · simp only [splitWSAux, hd, if_true, hc] at hw
        exact ih [] (by simp) w hw
      · simp only [splitWSAux, hd, if_true, hc, if_false] at hw
        rcases List.mem_cons.mp hw with heq | hw2
        · subst heq
          refine ⟨by simpa [List.isEmpty_iff] using hc, ?_⟩
          intro c hc2
          exact hcur c (List.mem_reverse.mp hc2)
        · exact ih [] (by simp) w hw2
    · simp only [splitWSAux, hd, if_false] at hw
      refine ih (d :: cur) ?_ w hw
      intro c hc2
      rcases List.mem_cons.mp hc2 with rfl | hc2
      · simpa using hd
      · exact hcur c hc2

/-- Every produced word is nonempty and whitespace-free. -/
theorem wordsOf_wf (l : List Char) :
    ∀ w ∈ wordsOf l, w ≠ [] ∧ ∀ c ∈ w, isWSb c = false :=
  splitWSAux_words_wf l [] (by simp)

theorem splitWSAux_single :
    ∀ (w cur : List Char), (∀ c ∈ w, isWSb c = false) → (w ≠ [] ∨ cur ≠ []) →
    splitWSAux w cur = [cur.reverse ++ w] := by
  intro w
  induction w with
  | nil =>
    intro cur _ hne
    have hc : ¬ cur.isEmpty := by
      rcases hne with h | h
      · exact absurd rfl h
      · simpa [List.isEmpty_iff] using h
    simp [splitWSAux, hc]
  | cons c w' ih =>
    intro cur hwf _
    have hc : isWSb c = false := hwf c (by simp)
    simp only [splitWSAux, hc, if_false]
    rw [ih (c :: cur) (fun d hd => hwf d (by simp [hd])) (Or.inr (by simp))]
    simp

/-- A nonempty whitespace-free text is its own single word. -/
theorem wordsOf_single (w : List Char) (hwf : ∀ c ∈ w, isWSb c = false)
    (hne : w ≠ []) : wordsOf w = [w] := by
  simpa [wordsOf] using splitWSAux_single w [] hwf (Or.inl hne)

/-- Joining a list of nonempty whitespace-free words recovers exactly those
words. -/
theorem wordsOf_joinSpace_words (lt : List (List Char))
    (h : ∀ w ∈ lt, w ≠ [] ∧ ∀ c ∈ w, isWSb c = false) :
    wordsOf (joinSpace lt) = lt := by
  rw [wordsOf_joinSpace]
  induction lt with
  | nil => simp
  | cons x xs ih =>
    simp only [List.map_cons, List.flatten_cons]
    rw [wordsOf_single x (h x (by simp)).2 (h x (by simp)).1]
    rw [ih (fun w hw => h w (by simp [hw]))]
    simp

theorem stripChars_eq_nil_iff (l : List Char) :
    stripChars l = [] ↔ ∀ c ∈ l, isWSb c = true := by
  constructor
  · intro h c hc
    have h2 : ∀ x ∈ l.dropWhile isWSb, isWSb x = true :=
      List.rdropWhile_eq_nil_iff.mp h
    rcases List.mem_append.mp
      ((List.takeWhile_append_dropWhile isWSb l ▸ hc : c ∈ _)) with h3 | h3
    · exact List.mem_takeWhile_imp h3
    · exact h2 c h3
  · intro h
    rw [stripChars, List.rdropWhile_eq_nil_iff]
    intro x hx
    exact h x (List.dropWhile_sublist isWSb |>.mem hx)

theorem splitWSAux_ne_nil_of_cur :
    ∀ (l cur : List Char), cur ≠ [] → splitWSAux l cur ≠ [] := by
  intro l
  induction l with
  | nil =>
    intro cur hcur
    simp [splitWSAux, List.isEmpty_iff, hcur]
  | cons c cs ih =>
    intro cur hcur
    by_cases hc : isWSb c
    · simp [splitWSAux, hc, List.isEmpty_iff, hcur]
    · simp only [splitWSAux, hc, if_false]
      exact ih (c :: cur) (by simp)

/-- Texts with no words are exactly the all-whitespace texts. -/
theorem wordsOf_eq_nil_iff (l : List Char) :
    wordsOf l = [] ↔ ∀ c ∈ l, isWSb c = true := by
  induction l with
  | nil => simp [wordsOf, splitWSAux]
  | cons d l' ih =>
    by_cases hd : isWSb d
    · constructor
      · intro h c hc
        rcases List.mem_cons.mp hc with heq | hc2
        · subst heq; exact hd
        · exact ih.mp (by simpa [wordsOf, splitWSAux, hd] using h) c hc2
      · intro h
        simpa [wordsOf, splitWSAux, hd] using ih.mpr (fun c hc => h c (by simp [hc]))
    · constructor
      · intro h
        exact absurd (by simpa [wordsOf, splitWSAux, hd] using h)
          (splitWSAux_ne_nil_of_cur l' [d] (by simp))
      · intro h
        exact absurd (h d (by simp)) (by simpa using hd)

/-! ## Token-estimate lemmas -/

/-- The estimator as a function of the word count. -/
def estN (w : Nat) : Nat := max 1 (4 * w / 3)

theorem estimate_tokens_eq_estN (l : List Char) :
    estimate_tokens l = estN (wordsOf l).length := rfl

theorem one_le_estN (w : Nat) : 1 ≤ estN w := by unfold estN; omega

theorem estN_mono {a b : Nat} (h : a ≤ b) : estN a ≤ estN b := by
  unfold estN; omega

theorem estN_add_le (a b : Nat) : estN (a + b) ≤ estN a + estN b + 1 := by
  unfold estN; omega

/-- Estimate of two texts joined by a space: subadditive up to 1. -/
theorem estimate_append_space_le (a b : List Char) :
    estimate_tokens (a ++ ' ' :: b) ≤ estimate_tokens a + estimate_tokens b + 1 := by
  rw [estimate_tokens_eq_estN, estimate_tokens_eq_estN, estimate_tokens_eq_estN,
    wordsOf_append_ws (by decide) a b, List.length_append]
  exact estN_add_le _ _

/-- Joining with a space never lowers the estimate of the left text. -/
theorem le_estimate_append_space (a b : List Char) :
    estimate_tokens a ≤ estimate_tokens (a ++ ' ' :: b) := by
  rw [estimate_tokens_eq_estN, estimate_tokens_eq_estN,
    wordsOf_append_ws (by decide) a b, List.length_append]
  exact estN_mono (Nat.le_add_right _ _)

/-! ## Merge-pass lemmas -/

theorem mergeAux_chain (tmin : Nat) :
    ∀ (rest merged : List (List Char)),
    List.Chain' (fun a b => ¬ (estimate_tokens a < tmin ∧ estimate_tokens b < tmin)) merged →
    List.Chain' (fun a b => ¬ (estimate_tokens a < tmin ∧ estimate_tokens b < tmin))
      (mergeAux tmin merged rest) := by
  intro rest
  induction rest with
  | nil => intro merged h; simpa [mergeAux] using h
  | cons ch rest ih =>
    intro merged h
    cases hlast : merged.getLast? with
    | none =>
      simp only [mergeAux, hlast]
      exact ih [ch] (by simp)
    | some m =>
      have hne : merged ≠ [] := by
        intro h0
        rw [h0] at hlast
        simp at hlast
      have hm : merged.getLast hne = m := by
        have := List.getLast?_eq_getLast merged hne
        rw [this] at hlast
        exact (Option.some_inj.mp hlast)
      have hsplit : merged.dropLast ++ [m] = merged := by
        rw [← hm]
        exact List.dropLast_concat_getLast hne
      rw [← hsplit] at h
      rcases List.chain'_append.mp h with ⟨h1, _, hlink⟩
      simp only [mergeAux, hlast]
      by_cases hcond : estimate_tokens m < tmin ∧ estimate_tokens ch < tmin
      · rw [if_pos hcond]
        apply ih
        apply List.chain'_append.mpr
        refine ⟨h1, by simp, ?_⟩
        intro x hx y hy
        simp only [List.head?_cons, Option.mem_def, Option.some_inj] at hy
        subst hy
        intro hboth
        have hsm : estimate_tokens m < tmin :=
          lt_of_le_of_lt (le_estimate_append_space m ch) hboth.2
        exact hlink x hx m (by simp) ⟨hboth.1, hsm⟩
      · rw [if_neg hcond]
        apply ih
        apply List.chain'_append.mpr
        refine ⟨hsplit ▸ h, by simp, ?_⟩
        intro x hx y hy
        simp only [List.head?_cons, Option.mem_def, Option.some_inj] at hy
        subst hy
        rw [hlast] at hx
        simp only [Option.mem_def, Option.some_inj] at hx
        subst hx
        exact hcond

theorem mergeAux_id (tmin : Nat) :
    ∀ (rest merged : List (List Char)),
    List.Chain' (fun a b => ¬ (estimate_tokens a < tmin ∧ estimate_tokens b < tmin))
      (merged ++ rest) →
    mergeAux tmin merged rest = merged ++ rest := by
  intro rest
  induction rest with
  | nil => intro merged _; simp [mergeAux]
  | cons ch rest ih =>
    intro merged h
    cases hlast : merged.getLast? with
    | none =>
      have h0 : merged = [] := List.getLast?_eq_none_iff.mp hlast
      subst h0
      simp only [mergeAux, List.getLast?_nil]
      simpa using ih [ch] (by simpa using h)
    | some m =>
      have hcond : ¬ (estimate_tokens m < tmin ∧ estimate_tokens ch < tmin) := by
        rcases List.chain'_append.mp h with ⟨_, _, hlink⟩
        exact hlink m (by rw [hlast]; rfl) ch (by simp)
      simp only [mergeAux, hlast, if_neg hcond]
      rw [ih (merged ++ [ch]) (by simpa using h)]
      simp

/-! ## Claim theorem: merge idempotence -/

/-- C6: after one undersized-merge pass no two adjacent chunks are both
below `target_min_tokens`, and therefore running the pass again on its own
output returns it unchanged. -/
theorem mergePass_idempotent (tmin : Nat) (l : List (List Char)) :
    List.Chain' (fun a b => ¬ (estimate_tokens a < tmin ∧ estimate_tokens b < tmin))
      (mergePass tmin l) ∧
    mergePass tmin (mergePass tmin l) = mergePass tmin l := by
  have h1 := mergeAux_chain tmin l [] (by simp)
  refine ⟨by simpa [mergePass] using h1, ?_⟩
  have h2 := mergeAux_id tmin (mergePass tmin l) [] (by simpa [mergePass] using h1)
  simpa [mergePass] using h2

/-! ## Chunk-loop coverage lemmas -/

/-- The word sequence held by a loop state: emitted chunks then the buffer. -/
def stWords (st : ChunkState) : List (List Char) :=
  (st.chunks.map wordsOf).flatten ++ (st.current.map wordsOf).flatten

/-- Every buffered or emitted piece has at least one word. -/
def GoodState (st : ChunkState) : Prop :=
  (∀ x ∈ st.chunks, wordsOf x ≠ []) ∧ (∀ x ∈ st.current, wordsOf x ≠ [])

/-- A text has words exactly when its strip is nonempty. -/
theorem wordsOf_ne_nil_iff_strip (l : List Char) :
    wordsOf l ≠ [] ↔ ¬ (stripChars l).isEmpty := by
  rw [List.isEmpty_iff]
  constructor
  · intro h hs
    exact h ((wordsOf_eq_nil_iff l).mpr ((stripChars_eq_nil_iff l).mp hs))
  · intro h hw
    exact h ((stripChars_eq_nil_iff l).mpr ((wordsOf_eq_nil_iff l).mp hw))

theorem flushChunks_words (st : ChunkState) :
    ((flushChunks st).map wordsOf).flatten =
      (st.chunks.map wordsOf).flatten ++ (st.current.map wordsOf).flatten := by
  unfold flushChunks
  by_cases h1 : st.current.isEmpty
  · have h0 : st.current = [] := by simpa [List.isEmpty_iff] using h1
    simp [h1, h0]
  · rw [if_neg h1]
    by_cases h2 : (stripChars (joinSpace st.current)).isEmpty
    · have hw : wordsOf (joinSpace st.current) = [] :=
        (wordsOf_eq_nil_iff _).mpr
          ((stripChars_eq_nil_iff _).mp (by simpa [List.isEmpty_iff] using h2))
      have h3 : (st.current.map wordsOf).flatten = [] := by
        rw [← wordsOf_joinSpace]
        exact hw
      simp [h2, h3]
    · rw [if_neg h2]
      have h3 : wordsOf (stripChars (joinSpace st.current)) =
          (st.current.map wordsOf).flatten := by
        rw [wordsOf_strip, wordsOf_joinSpace]
      simp [h3]

theorem flushChunks_good (st : ChunkState) (h : ∀ x ∈ st.chunks, wordsOf x ≠ []) :
    ∀ x ∈ flushChunks st, wordsOf x ≠ [] := by
  unfold flushChunks
  by_cases h1 : st.current.isEmpty
  · simpa [h1] using h
  · rw [if_neg h1]
    by_cases h2 : (stripChars (joinSpace st.current)).isEmpty
    · simpa [h2] using h
    · rw [if_neg h2]
      intro x hx
      rcases List.mem_append.mp hx with hx | hx
      · exact h x hx
      · rcases List.mem_singleton.mp hx with rfl
        rw [wordsOf_strip]
        exact (wordsOf_ne_nil_iff_strip _).mpr h2

/-- With a nonempty buffer of worded pieces, the flush emits a chunk, so the
flushed chunk list is nonempty. -/
theorem flushChunks_ne_nil (st : ChunkState) (hcur : ¬ st.current.isEmpty)
    (hw : ∀ x ∈ st.current, wordsOf x ≠ []) : flushChunks st ≠ [] := by
  have hjw : wordsOf (joinSpace st.current) ≠ [] := by
    rw [wordsOf_joinSpace]
    cases hc : st.current with
    | nil => exact absurd (by simp [hc]) hcur
    | cons c cs =>
      simp only [List.map_cons, List.flatten_cons]
      intro hcon
      exact hw c (by simp [hc]) (by
        rcases List.append_eq_nil.mp hcon with ⟨h1, _⟩
        exact h1)
  have h2 : ¬ (stripChars (joinSpace st.current)).isEmpty :=
    (wordsOf_ne_nil_iff_strip _).mp hjw
  unfold flushChunks
  rw [if_neg hcur, if_neg h2]
  simp

/-- The overlap tail has words, and (for a positive overlap budget) at most
`omin` of them. -/
theorem overlapOf_facts (omin : Nat) (last : List Char) (hlw : wordsOf last ≠ []) :
    wordsOf (overlapOf omin last) ≠ [] ∧
    (1 ≤ omin → (wordsOf (overlapOf omin last)).length ≤ omin) := by
  unfold overlapOf
  by_cases hlen : (wordsOf last).length > omin
  · rw [if_pos hlen]
    have hsub : ∀ w ∈ pyTail omin (wordsOf last), w ≠ [] ∧ ∀ c ∈ w, isWSb c = false := by
      intro w hwmem
      apply wordsOf_wf last
      unfold pyTail at hwmem
      by_cases h0 : omin = 0
      · simpa [h0] using hwmem
      · rw [if_neg h0] at hwmem
        exact List.drop_subset _ _ hwmem
    rw [wordsOf_joinSpace_words (pyTail omin (wordsOf last)) hsub]
    constructor
    · unfold pyTail
      by_cases h0 : omin = 0
      · simpa [h0] using hlw
      · rw [if_neg h0]
        intro hcon
        have := List.length_drop ((wordsOf last).length - omin) (wordsOf last)
        rw [hcon] at this
        simp at this
        omega
    · intro h1
      unfold pyTail
      rw [if_neg (by omega)]
      rw [List.length_drop]
      omega
  · rw [if_neg hlen]
    exact ⟨hlw, fun _ => by omega⟩

theorem pushCurrent_none_chunks (omin : Nat) (st : ChunkState) :
    pushCurrent omin st none = { chunks := flushChunks st, current := [], current_tokens := 0 } := rfl

theorem stWords_pushCurrent_none (omin : Nat) (st : ChunkState) :
    stWords (pushCurrent omin st none) = stWords st := by
  rw [pushCurrent_none_chunks]
  simp [stWords, flushChunks_words]

/-- Effect of one loop step (`chunkStep`) on the state words: the part's
words are appended, possibly after an injected overlap tail. -/
theorem chunkStep_words (tmax omin : Nat) (st : ChunkState) (part : List Char)
    (hgood : GoodState st) (hpw : wordsOf part ≠ []) :
    GoodState (chunkStep tmax omin st part) ∧
    (stWords st ++ wordsOf part).Sublist (stWords (chunkStep tmax omin st part)) := by
  have hadd : GoodState (chunkAdd tmax omin st part) ∧
      (stWords st ++ wordsOf part).Sublist (stWords (chunkAdd tmax omin st part)) := by
    unfold chunkAdd
    by_cases hover : st.current_tokens + estimate_tokens part > tmax ∧ ¬ st.current.isEmpty
    · rw [if_pos hover]
      unfold pushCurrent
      cases hlast : (flushChunks st).getLast? with
      | none =>
        exact absurd (List.getLast?_eq_none_iff.mp hlast)
          (flushChunks_ne_nil st hover.2 hgood.2)
      | some last =>
        have hlmem : last ∈ flushChunks st := by
          have hne : flushChunks st ≠ [] := flushChunks_ne_nil st hover.2 hgood.2
          have h2 := List.getLast?_eq_getLast _ hne
          rw [h2] at hlast
          rw [← Option.some_inj.mp hlast]
          exact List.getLast_mem hne
        have hlw : wordsOf last ≠ [] := flushChunks_good st hgood.1 last hlmem
        have hov := overlapOf_facts omin last hlw
        constructor
        · constructor
          · exact flushChunks_good st hgood.1
          · intro x hx
            rcases List.mem_cons.mp hx with heq | hx2
            · subst heq; exact hov.1
            · rcases List.mem_singleton.mp hx2 with rfl
              exact hpw
        · have hshape : stWords
              { chunks := flushChunks st
                current := [overlapOf omin last, part]
                current_tokens :=
                  estimate_tokens (overlapOf omin last) + estimate_tokens part } =
              stWords st ++ (wordsOf (overlapOf omin last) ++ wordsOf part) := by
            simp [stWords, flushChunks_words, List.append_assoc]
          rw [hshape]
          rw [← List.append_assoc (stWords st)]
          exact List.Sublist.append
            (List.sublist_append_left (stWords st) (wordsOf (overlapOf omin last)))
            (List.Sublist.refl _)
    · rw [if_neg hover]
      refine ⟨⟨hgood.1, ?_⟩, ?_⟩
      · intro x hx
        rcases List.mem_append.mp hx with hx | hx
        · exact hgood.2 x hx
        · rcases List.mem_singleton.mp hx with rfl
          exact hpw
      · have hshape : stWords
            { st with
              current := st.current ++ [part]
              current_tokens := st.current_tokens + estimate_tokens part } =
            stWords st ++ wordsOf part := by
          simp [stWords, List.append_assoc]
        rw [hshape]
  unfold chunkStep
  by_cases hforce : (chunkAdd tmax omin st part).current_tokens > tmax + 200
  · rw [if_pos hforce]
    refine ⟨⟨flushChunks_good _ hadd.1.1, by simp [pushCurrent]⟩, ?_⟩
    rw [stWords_pushCurrent_none]
    exact hadd.2
  · rw [if_neg hforce]
    exact hadd

/-- The coverage invariant carried through the whole part loop. -/
theorem chunkLoop_coverage (tmax omin : Nat) :
    ∀ (parts : List (List Char)) (st : ChunkState), GoodState st →
    GoodState (chunkLoop tmax omin parts st) ∧
    (stWords st ++ (parts.map wordsOf).flatten).Sublist
      (stWords (chunkLoop tmax omin parts st)) := by
  intro parts
  induction parts with
  | nil =>
    intro st h
    refine ⟨h, ?_⟩
    simp [chunkLoop]
  | cons p rest ih =>
    intro st h
    by_cases hblank : (stripChars p).isEmpty
    · have hwp : wordsOf p = [] :=
        (wordsOf_eq_nil_iff p).mpr
          ((stripChars_eq_nil_iff p).mp (by simpa [List.isEmpty_iff] using hblank))
      simp only [chunkLoop, hblank, if_pos, List.map_cons, List.flatten_cons, hwp,
        List.nil_append]
      exact ih st h
    · have hwp : wordsOf (stripChars p) ≠ [] := by
        rw [wordsOf_strip]
        intro hcon
        exact hblank (by
          simp only [List.isEmpty_iff]
          exact (stripChars_eq_nil_iff p).mpr ((wordsOf_eq_nil_iff p).mp hcon))
      have hstep := chunkStep_words tmax omin st (stripChars p) h hwp
      have hrec := ih (chunkStep tmax omin st (stripChars p)) hstep.1
      simp only [chunkLoop, hblank, if_neg, List.map_cons, List.flatten_cons]
      refine ⟨hrec.1, ?_⟩
      have h1 : (stWords st ++ (wordsOf p ++ (rest.map wordsOf).flatten)).Sublist
          (stWords (chunkStep tmax omin st (stripChars p)) ++ (rest.map wordsOf).flatten) := by
        rw [← List.append_assoc]
        refine List.Sublist.append ?_ (List.Sublist.refl _)
        rw [← wordsOf_strip p]
        exact hstep.2
      exact h1.trans hrec.2

/-- Words of the final flushed chunk list. -/
theorem finalState_words (omin : Nat) (st : ChunkState) :
    (((finalState omin st).chunks.map wordsOf).flatten) = stWords st := by
  unfold finalState
  by_cases h : st.current.isEmpty
  · have h0 : st.current = [] := by simpa [List.isEmpty_iff] using h
    simp [h, stWords, h0]
  · rw [if_neg h, pushCurrent_none_chunks]
    simp [stWords, flushChunks_words]

/-- The merge pass preserves the concatenated word sequence. -/
theorem mergeAux_words (tmin : Nat) :
    ∀ (rest merged : List (List Char)),
    ((mergeAux tmin merged rest).map wordsOf).flatten =
      (merged.map wordsOf).flatten ++ (rest.map wordsOf).flatten := by
  intro rest
  induction rest with
  | nil => intro merged; simp [mergeAux]
  | cons ch rest ih =>
    intro merged
    cases hlast : merged.getLast? with
    | none =>
      have h0 : merged = [] := List.getLast?_eq_none_iff.mp hlast
      subst h0
      simp only [mergeAux, List.getLast?_nil]
      rw [ih [ch]]
      simp
    | some m =>
      have hne : merged ≠ [] := by
        intro h0
        rw [h0] at hlast
        simp at hlast
      have hm : merged.getLast hne = m := by
        have h2 := List.getLast?_eq_getLast merged hne
        rw [h2] at hlast
        exact Option.some_inj.mp hlast
      have hsplit : merged.dropLast ++ [m] = merged := by
        rw [← hm]
        exact List.dropLast_concat_getLast hne
      simp only [mergeAux, hlast]
      by_cases hcond : estimate_tokens m < tmin ∧ estimate_tokens ch < tmin
      · rw [if_pos hcond, ih]
        rw [← hsplit]
        simp [wordsOf_append_ws (by decide : isWSb ' ' = true) m ch, List.append_assoc]
      · rw [if_neg hcond, ih]
        simp [List.append_assoc]

/-! ## Claim theorem: chunk word coverage -/

/-- C4 (amended): the chunker loses the bullet markers that `re.split`
consumes and renormalises whitespace, but it preserves every whitespace-
delimited word of every bullet-split part of the section body, in order: the
concatenated word sequence of the parts is a subsequence of the concatenated
word sequence of the produced chunks (the extra occurrences are the injected
overlap tails). -/
theorem chunk_section_word_coverage (text : List Char) (tmin tmax omin omax : Nat) :
    (((partsOf text).map wordsOf).flatten).Sublist
      (((chunk_section text tmin tmax omin omax).map wordsOf).flatten) := by
  have hloop := chunkLoop_coverage tmax omin (partsOf text) ⟨[], [], 0⟩
    ⟨by simp, by simp⟩
  have h1 : (((partsOf text).map wordsOf).flatten).Sublist
      (stWords (chunkLoop tmax omin (partsOf text) ⟨[], [], 0⟩)) := by
    have h2 := hloop.2
    simpa [stWords] using h2
  unfold chunk_section
  rw [show mergePass tmin
      (finalState omin (chunkLoop tmax omin (partsOf text) ⟨[], [], 0⟩)).chunks =
      mergeAux tmin [] (finalState omin (chunkLoop tmax omin (partsOf text) ⟨[], [], 0⟩)).chunks
    from rfl]
  rw [mergeAux_words]
  simp only [List.map_nil, List.flatten_nil, List.nil_append]
  rw [finalState_words]
  exact h1

/-- Counterexample to C4 as stated: the section body "alpha\n(a) beta" yields
the single chunk "alpha beta" (no overlap is injected), whose concatenation
drops the characters "(a)" and the newline of the body. -/
theorem chunk_section_loss_counterexample :
    chunk_section ("alpha\n(a) beta".toList) 300 700 50 150 = ["alpha beta".toList] ∧
    "alpha beta".toList ≠ "alpha\n(a) beta".toList := by
  constructor
  · decide
  · decide

/-! ## Chunk-size bound lemmas -/

theorem estN_sum_le (ws : List Nat) (h : ws ≠ []) :
    estN ws.sum + 1 ≤ (ws.map estN).sum + ws.length := by
  induction ws with
  | nil => exact absurd rfl h
  | cons w rest ih =>
    cases rest with
    | nil => simp
    | cons x rest' =>
      have h1 := estN_add_le w (x :: rest').sum
      have h2 := ih (by simp)
      simp only [List.sum_cons, List.map_cons, List.length_cons] at h1 h2 ⊢
      omega

/-- Stripping never changes the estimate. -/
theorem estimate_strip (l : List Char) :
    estimate_tokens (stripChars l) = estimate_tokens l := by
  rw [estimate_tokens_eq_estN, estimate_tokens_eq_estN, wordsOf_strip]

/-- Subadditivity of the estimate over a joined buffer. -/
theorem estimate_join_le (ls : List (List Char)) (h : ls ≠ []) :
    estimate_tokens (stripChars (joinSpace ls)) + 1 ≤
      (ls.map estimate_tokens).sum + ls.length := by
  have h1 : estimate_tokens (stripChars (joinSpace ls)) =
      estN ((ls.map (fun x => (wordsOf x).length)).sum) := by
    rw [estimate_tokens_eq_estN, wordsOf_strip, wordsOf_joinSpace, List.length_flatten,
      List.map_map]
    rfl
  have h2 : ((ls.map (fun x => (wordsOf x).length)).map estN).sum =
      (ls.map estimate_tokens).sum := by
    rw [List.map_map]
    rfl
  have h3 := estN_sum_le (ls.map (fun x => (wordsOf x).length)) (by simpa using h)
  rw [h2] at h3
  rw [h1]
  simpa using h3

theorem sum_est_ge_length (ls : List (List Char)) :
    ls.length ≤ (ls.map estimate_tokens).sum := by
  induction ls with
  | nil => simp
  | cons x rest ih =>
    simp only [List.length_cons, List.map_cons, List.sum_cons]
    have := one_le_estN (wordsOf x).length
    rw [estimate_tokens_eq_estN]
    omega

theorem foldr_max_le_mem {α : Type} (f : α → Nat) (l : List α) (x : α) (hx : x ∈ l) :
    f x ≤ (l.map f).foldr max 0 := by
  induction l with
  | nil => cases hx
  | cons a rest ih =>
    rcases List.mem_cons.mp hx with heq | hx2
    · subst heq
      simp only [List.map_cons, List.foldr_cons]
      exact le_max_left _ _
    · simp only [List.map_cons, List.foldr_cons]
      exact le_trans (ih hx2) (le_max_right _ _)

theorem flushChunks_mem (st : ChunkState) :
    ∀ x ∈ flushChunks st, x ∈ st.chunks ∨ x = stripChars (joinSpace st.current) := by
  intro x hx
  unfold flushChunks at hx
  by_cases h1 : st.current.isEmpty
  · rw [if_pos h1] at hx
    exact Or.inl hx
  · rw [if_neg h1] at hx
    by_cases h2 : (stripChars (joinSpace st.current)).isEmpty
    · rw [if_pos h2] at hx
      exact Or.inl hx
    · rw [if_neg h2] at hx
      rcases List.mem_append.mp hx with hx2 | hx2
      · exact Or.inl hx2
      · exact Or.inr (List.mem_singleton.mp hx2)

/-- Any chunk emitted by a flush of a buffer whose token counter is within
`tmax + 200` is bounded by `2*(tmax+200) - 1`. -/
theorem flushChunks_bound (B tmax : Nat) (st : ChunkState)
    (htok : st.current_tokens = (st.current.map estimate_tokens).sum)
    (hle : st.current_tokens ≤ tmax + 200)
    (hb : ∀ x ∈ st.chunks, estimate_tokens x ≤ B)
    (hB : 2 * (tmax + 200) ≤ B + 1) :
    ∀ x ∈ flushChunks st, estimate_tokens x ≤ B := by
  intro x hx
  rcases flushChunks_mem st x hx with hmem | heq
  · exact hb x hmem
  · subst heq
    cases hcur : st.current with
    | nil => simp [hcur, joinSpace, stripChars, estimate_tokens, wordsOf, splitWSAux, estN]
      <;> omega
    | cons c cs =>
      have h1 := estimate_join_le (c :: cs) (by simp)
      have h2 := sum_est_ge_length (c :: cs)
      rw [hcur] at htok
      omega

theorem flushChunks_eq_append (st : ChunkState) (hcur : ¬ st.current.isEmpty)
    (hw : ∀ x ∈ st.current, wordsOf x ≠ []) :
    flushChunks st = st.chunks ++ [stripChars (joinSpace st.current)] := by
  have hjw : wordsOf (joinSpace st.current) ≠ [] := by
    rw [wordsOf_joinSpace]
    cases hc : st.current with
    | nil => exact absurd (by simp [hc]) hcur
    | cons c cs =>
      simp only [List.map_cons, List.flatten_cons]
      intro hcon
      exact hw c (by simp [hc]) (List.append_eq_nil.mp hcon).1
  have h2 : ¬ (stripChars (joinSpace st.current)).isEmpty :=
    (wordsOf_ne_nil_iff_strip _).mp hjw
  unfold flushChunks
  rw [if_neg hcur, if_neg h2]

theorem est_join_pair_le (a b : List Char) :
    estimate_tokens (stripChars (joinSpace [a, b])) ≤
      estimate_tokens a + estimate_tokens b + 1 := by
  have h := estimate_join_le [a, b] (by simp)
  simp only [List.map_cons, List.map_nil, List.sum_cons, List.sum_nil,
    List.length_cons, List.length_nil] at h
  omega

theorem est_join_single (a : List Char) :
    estimate_tokens (stripChars (joinSpace [a])) = estimate_tokens a := by
  have h1 : joinSpace [a] = a := rfl
  rw [h1, estimate_strip]

/-- One loop step preserves the size invariants: the token counter tracks the
buffer, stays within `tmax + 200`, and every emitted chunk is bounded by `B`
(where `B` dominates both `2*(tmax+200) - 1` and one part plus one overlap
tail). -/
theorem chunkStep_bound (tmax omin : Nat) (homin : 1 ≤ omin) (B P : Nat)
    (hB1 : 2 * (tmax + 200) ≤ B + 1) (hB2 : P + estN omin + 1 ≤ B)
    (st : ChunkState) (part : List Char)
    (hgood : GoodState st) (hpw : wordsOf part ≠ [])
    (hpP : estimate_tokens part ≤ P)
    (htok : st.current_tokens = (st.current.map estimate_tokens).sum)
    (hle : st.current_tokens ≤ tmax + 200)
    (hb : ∀ x ∈ st.chunks, estimate_tokens x ≤ B) :
    GoodState (chunkStep tmax omin st part) ∧
    (chunkStep tmax omin st part).current_tokens =
      ((chunkStep tmax omin st part).current.map estimate_tokens).sum ∧
    (chunkStep tmax omin st part).current_tokens ≤ tmax + 200 ∧
    ∀ x ∈ (chunkStep tmax omin st part).chunks, estimate_tokens x ≤ B := by
  unfold chunkStep
  by_cases hover : st.current_tokens + estimate_tokens part > tmax ∧ ¬ st.current.isEmpty
  · have hA : chunkAdd tmax omin st part = pushCurrent omin st (some part) := by
      unfold chunkAdd
      rw [if_pos hover]
    have hne : flushChunks st ≠ [] := flushChunks_ne_nil st hover.2 hgood.2
    obtain ⟨last, hlast⟩ : ∃ last, (flushChunks st).getLast? = some last := by
      cases hq : (flushChunks st).getLast? with
      | none => exact absurd (List.getLast?_eq_none_iff.mp hq) hne
      | some l => exact ⟨l, rfl⟩
    have hlmem : last ∈ flushChunks st := by
      have h2 := List.getLast?_eq_getLast _ hne
      rw [h2] at hlast
      rw [← Option.some_inj.mp hlast]
      exact List.getLast_mem hne
    have hlw : wordsOf last ≠ [] := flushChunks_good st hgood.1 last hlmem
    have hov := overlapOf_facts omin last hlw
    have hovP : estimate_tokens (overlapOf omin last) ≤ estN omin := by
      rw [estimate_tokens_eq_estN]
      exact estN_mono (hov.2 homin)
    have hP : pushCurrent omin st (some part) =
        { chunks := flushChunks st
          current := [overlapOf omin last, part]
          current_tokens :=
            estimate_tokens (overlapOf omin last) + estimate_tokens part } := by
      unfold pushCurrent
      rw [hlast]
    have hfb : ∀ x ∈ flushChunks st, estimate_tokens x ≤ B :=
      flushChunks_bound B tmax st htok hle hb hB1
    have hfg : ∀ x ∈ flushChunks st, wordsOf x ≠ [] := flushChunks_good st hgood.1
    have hcw : ∀ x ∈ [overlapOf omin last, part], wordsOf x ≠ [] := by
      intro x hx
      rcases List.mem_cons.mp hx with heq | hx2
      · subst heq; exact hov.1
      · rcases List.mem_singleton.mp hx2 with rfl; exact hpw
    rw [hA, hP]
    by_cases hforce : estimate_tokens (overlapOf omin last) + estimate_tokens part >
        tmax + 200
    · rw [if_pos hforce, pushCurrent_none_chunks]
      have hflush1 : flushChunks
          { chunks := flushChunks st
            current := [overlapOf omin last, part]
            current_tokens :=
              estimate_tokens (overlapOf omin last) + estimate_tokens part } =
          flushChunks st ++
            [stripChars (joinSpace [overlapOf omin last, part])] := by
        rw [flushChunks_eq_append _ (by simp) hcw]
      refine ⟨⟨?_, by simp⟩, by simp, by simp, ?_⟩
      · intro x hx
        simp only at hx
        rw [hflush1] at hx
        rcases List.mem_append.mp hx with hx2 | hx2
        · exact hfg x hx2
        · rcases List.mem_singleton.mp hx2 with rfl
          rw [wordsOf_strip, wordsOf_joinSpace]
          simp only [List.map_cons, List.map_nil, List.flatten_cons, List.flatten_nil]
          intro hcon
          exact hov.1 (List.append_eq_nil.mp hcon).1
      · intro x hx
        simp only at hx
        rw [hflush1] at hx
        rcases List.mem_append.mp hx with hx2 | hx2
        · exact hfb x hx2
        · rcases List.mem_singleton.mp hx2 with rfl
          have h3 := est_join_pair_le (overlapOf omin last) part
          omega
    · rw [if_neg hforce]
      refine ⟨⟨hfg, hcw⟩, by simp, ?_, hfb⟩
      show estimate_tokens (overlapOf omin last) + estimate_tokens part ≤ tmax + 200
      omega
  · have hA : chunkAdd tmax omin st part =
        { st with
          current := st.current ++ [part]
          current_tokens := st.current_tokens + estimate_tokens part } := by
      unfold chunkAdd
      rw [if_neg hover]
    rw [hA]
    by_cases hforce : st.current_tokens + estimate_tokens part > tmax + 200
    · have hcur0 : st.current = [] := by
        by_contra hcc
        rcases not_and_or.mp hover with h2 | h2
        · omega
        · exact h2 (by simpa [List.isEmpty_iff] using hcc)
      have htok0 : st.current_tokens = 0 := by
        rw [htok, hcur0]
        rfl
      rw [if_pos hforce, pushCurrent_none_chunks]
      have hflush1 : flushChunks
          { st with
            current := st.current ++ [part]
            current_tokens := st.current_tokens + estimate_tokens part } =
          st.chunks ++ [stripChars (joinSpace (st.current ++ [part]))] := by
        rw [flushChunks_eq_append _ (by simp) ?hw]
        case hw =>
          intro x hx
          simp only at hx
          rcases List.mem_append.mp hx with hx2 | hx2
          · exact hgood.2 x hx2
          · rcases List.mem_singleton.mp hx2 with rfl; exact hpw
      refine ⟨⟨?_, by simp⟩, by simp, by simp, ?_⟩
      · intro x hx
        simp only at hx
        rw [hflush1] at hx
        rcases List.mem_append.mp hx with hx2 | hx2
        · exact hgood.1 x hx2
        · rcases List.mem_singleton.mp hx2 with rfl
          rw [wordsOf_strip, wordsOf_joinSpace]
          rw [hcur0]
          simp only [List.nil_append, List.map_cons, List.map_nil, List.flatten_cons,
            List.flatten_nil, List.append_nil]
          exact hpw
      · intro x hx
        simp only at hx
        rw [hflush1] at hx
        rcases List.mem_append.mp hx with hx2 | hx2
        · exact hb x hx2
        · rcases List.mem_singleton.mp hx2 with rfl
          rw [hcur0]
          simp only [List.nil_append]
          rw [est_join_single]
          omega
    · rw [if_neg hforce]
      refine ⟨⟨hgood.1, ?_⟩, ?_,
        by show st.current_tokens + estimate_tokens part ≤ tmax + 200; omega, hb⟩
      · intro x hx
        simp only at hx
        rcases List.mem_append.mp hx with hx2 | hx2
        · exact hgood.2 x hx2
        · rcases List.mem_singleton.mp hx2 with rfl; exact hpw
      · simp only [List.map_append, List.sum_append, List.map_cons, List.map_nil,
          List.sum_cons, List.sum_nil]
        omega

/-- The size invariants carried through the whole part loop. -/
theorem chunkLoop_bound (tmax omin : Nat) (homin : 1 ≤ omin) (B P : Nat)
    (hB1 : 2 * (tmax + 200) ≤ B + 1) (hB2 : P + estN omin + 1 ≤ B) :
    ∀ (parts : List (List Char)) (st : ChunkState),
    (∀ p ∈ parts, estimate_tokens (stripChars p) ≤ P) →
    GoodState st →
    st.current_tokens = (st.current.map estimate_tokens).sum →
    st.current_tokens ≤ tmax + 200 →
    (∀ x ∈ st.chunks, estimate_tokens x ≤ B) →
    GoodState (chunkLoop tmax omin parts st) ∧
    (chunkLoop tmax omin parts st).current_tokens =
      ((chunkLoop tmax omin parts st).current.map estimate_tokens).sum ∧
    (chunkLoop tmax omin parts st).current_tokens ≤ tmax + 200 ∧
    ∀ x ∈ (chunkLoop tmax omin parts st).chunks, estimate_tokens x ≤ B := by
  intro parts
  induction parts with
  | nil =>
    intro st hp hg ht hl hb
    simpa [chunkLoop] using ⟨hg, ht, hl, hb⟩
  | cons p rest ih =>
    intro st hp hg ht hl hb
    by_cases hblank : (stripChars p).isEmpty
    · simp only [chunkLoop, hblank, if_pos]
      exact ih st (fun q hq => hp q (by simp [hq])) hg ht hl hb
    · have hwp : wordsOf (stripChars p) ≠ [] := by
        rw [wordsOf_strip]
        intro hcon
        exact hblank (by
          simp only [List.isEmpty_iff]
          exact (stripChars_eq_nil_iff p).mpr ((wordsOf_eq_nil_iff p).mp hcon))
      have hstep := chunkStep_bound tmax omin homin B P hB1 hB2 st (stripChars p)
        hg hwp (hp p (by simp)) ht hl hb
      simp only [chunkLoop, hblank, if_neg]
      exact ih _ (fun q hq => hp q (by simp [hq])) hstep.1 hstep.2.1 hstep.2.2.1
        hstep.2.2.2

theorem finalState_bound (B tmax omin : Nat) (st : ChunkState)
    (ht : st.current_tokens = (st.current.map estimate_tokens).sum)
    (hl : st.current_tokens ≤ tmax + 200)
    (hb : ∀ x ∈ st.chunks, estimate_tokens x ≤ B)
    (hB1 : 2 * (tmax + 200) ≤ B + 1) :
    ∀ x ∈ (finalState omin st).chunks, estimate_tokens x ≤ B := by
  unfold finalState
  by_cases h : st.current.isEmpty
  · rw [if_pos h]
    exact hb
  · rw [if_neg h, pushCurrent_none_chunks]
    exact flushChunks_bound B tmax st ht hl hb hB1

theorem mergeAux_bound (tmin B : Nat) (hB : 2 * tmin ≤ B + 1) :
    ∀ (rest merged : List (List Char)),
    (∀ x ∈ merged, estimate_tokens x ≤ B) →
    (∀ x ∈ rest, estimate_tokens x ≤ B) →
    ∀ x ∈ mergeAux tmin merged rest, estimate_tokens x ≤ B := by
  intro rest
  induction rest with
  | nil =>
    intro merged hm _ x hx
    exact hm x (by simpa [mergeAux] using hx)
  | cons ch rest ih =>
    intro merged hm hr
    cases hlast : merged.getLast? with
    | none =>
      simp only [mergeAux, hlast]
      refine ih [ch] ?_ (fun x hx => hr x (by simp [hx]))
      intro x hx
      rcases List.mem_singleton.mp hx with rfl
      exact hr x (by simp)
    | some m =>
      have hmm : m ∈ merged := by
        have hne : merged ≠ [] := by
          intro h0
          rw [h0] at hlast
          simp at hlast
        have h2 := List.getLast?_eq_getLast merged hne
        rw [h2] at hlast
        rw [← Option.some_inj.mp hlast]
        exact List.getLast_mem hne
      simp only [mergeAux, hlast]
      by_cases hcond : estimate_tokens m < tmin ∧ estimate_tokens ch < tmin
      · rw [if_pos hcond]
        refine ih _ ?_ (fun x hx => hr x (by simp [hx]))
        intro x hx
        rcases List.mem_append.mp hx with hx2 | hx2
        · exact hm x ((List.dropLast_sublist merged).subset hx2)
        · rcases List.mem_singleton.mp hx2 with rfl
          have h3 := estimate_append_space_le m ch
          omega
      · rw [if_neg hcond]
        refine ih _ ?_ (fun x hx => hr x (by simp [hx]))
        intro x hx
        rcases List.mem_append.mp hx with hx2 | hx2
        · exact hm x hx2
        · rcases List.mem_singleton.mp hx2 with rfl
          exact hr x (by simp)

/-- The provable chunk-size bound: the maximum of twice the force-flush
threshold, twice the merge minimum, and one part estimate plus an overlap
tail plus one. -/
def chunkBound (text : List Char) (tmin tmax omin : Nat) : Nat :=
  max (max (2 * (tmax + 200)) (2 * tmin))
    (((partsOf text).map (fun p => estimate_tokens (stripChars p))).foldr max 0 +
      estN omin + 1)

/-! ## Claim theorem: chunk token bound -/

/-- C5 (amended): for a positive overlap budget, every chunk's estimated
token count is bounded by `chunkBound`: the maximum of `2*(target_max+200)`,
`2*target_min`, and the largest stripped-part estimate plus the overlap cap
plus one.  The claimed interval `[target_min, target_max+200]` does not hold:
chunks may fall below `target_min` whenever they are not adjacent to another
undersized chunk, and multi-part chunks may exceed `target_max + 200` because
the token counter undercounts the estimate of the joined text (see the
counterexample). -/
theorem chunk_section_token_bound (text : List Char) (tmin tmax omin omax : Nat)
    (homin : 1 ≤ omin) :
    ∀ ch ∈ chunk_section text tmin tmax omin omax,
      estimate_tokens ch ≤ chunkBound text tmin tmax omin := by
  have hB1 : 2 * (tmax + 200) ≤ chunkBound text tmin tmax omin + 1 := by
    unfold chunkBound
    omega
  have hB2 : ((partsOf text).map (fun p => estimate_tokens (stripChars p))).foldr max 0 +
      estN omin + 1 ≤ chunkBound text tmin tmax omin :=
    le_max_right _ _
  have hB3 : 2 * tmin ≤ chunkBound text tmin tmax omin + 1 := by
    unfold chunkBound
    omega
  have hp : ∀ p ∈ partsOf text, estimate_tokens (stripChars p) ≤
      ((partsOf text).map (fun p => estimate_tokens (stripChars p))).foldr max 0 :=
    fun p hp => foldr_max_le_mem (fun q => estimate_tokens (stripChars q)) (partsOf text) p hp
  have hloop := chunkLoop_bound tmax omin homin (chunkBound text tmin tmax omin)
    (((partsOf text).map (fun p => estimate_tokens (stripChars p))).foldr max 0)
    hB1 hB2 (partsOf text) ⟨[], [], 0⟩ hp
    ⟨by simp, by simp⟩ rfl (by simp) (by simp)
  have hfin := finalState_bound (chunkBound text tmin tmax omin) tmax omin _
    hloop.2.1 hloop.2.2.1 hloop.2.2.2 hB1
  intro ch hch
  exact mergeAux_bound tmin (chunkBound text tmin tmax omin) hB3 _ []
    (by simp) hfin ch hch

/-- A section body with one 4-word bullet item followed by one 158-word
bullet item. -/
def stressText : List Char :=
  "(a) a b c d\n(b) ".toList ++ joinSpace (List.replicate 158 ['w'])

set_option maxRecDepth 8000 in
/-- Counterexample to C5 as stated, at `target_min = 10`, `target_max = 10`,
`min_overlap = 2`: the chunker emits estimates `[5, 213]`.  The first chunk
("a b c d", one whole part) has estimate 5, below `target_min`, and does not
exceed the maximum, so the oversized-indivisible exception cannot excuse it;
the second chunk (an injected overlap tail plus one part, flushed by the
safety valve) has estimate 213 > `target_max + 200 = 210`, breaching the
claimed upper slack as well. -/
theorem chunk_section_bound_counterexample :
    (chunk_section stressText 10 10 2 5).map estimate_tokens = [5, 213] ∧
    5 < 10 ∧ ¬ 10 < 5 ∧ 10 + 200 < 213 := by
  refine ⟨?_, by omega, by omega, by omega⟩
  decide

/-- Witness for C5's amended bound at a small input. -/
theorem chunk_section_token_bound_witness :
    1 ≤ 50 ∧ estimate_tokens ("hello world".toList) ≤
      chunkBound ("hello world".toList) 300 700 50 := by
  refine ⟨by decide, ?_⟩
  exact chunk_section_token_bound ("hello world".toList) 300 700 50 150 (by decide)
    ("hello world".toList) (by decide)

/-! ## Section-splitter lemmas -/

theorem pySlice_self (l : List Char) (a : Nat) : pySlice l a a = [] := by
  simp [pySlice]

theorem pySlice_append (l : List Char) {a b c : Nat} (hab : a ≤ b) (hbc : b ≤ c) :
    pySlice l a b ++ pySlice l b c = pySlice l a c := by
  unfold pySlice
  rw [show c - a = (b - a) + (c - b) by omega, List.take_add, List.drop_drop,
    show a + (b - a) = b by omega]

theorem wsOnly_append (a b : List Char) :
    wsOnly (a ++ b) = (wsOnly a && wsOnly b) := by
  simp [wsOnly, List.all_append]

theorem stripChars_isEmpty_iff_wsOnly (l : List Char) :
    (stripChars l).isEmpty = true ↔ wsOnly l = true := by
  rw [List.isEmpty_iff, wsOnly, List.all_eq_true]
  exact stripChars_eq_nil_iff l

/-- The tiling property of the produced sections over positions `c` to `e`:
consecutive sections are separated only by whitespace-only slices, every
section's span is nonempty and ordered, and the trailing slice up to `e` is
whitespace-only. -/
def TiledFrom (text : List Char) (e : Nat) : Nat → List Sec → Prop
  | c, [] => c ≤ e ∧ wsOnly (pySlice text c e) = true
  | c, s :: rest => wsOnly (pySlice text c s.start) = true ∧ c ≤ s.start ∧
      s.start < s.stop ∧ TiledFrom text e s.stop rest

theorem TiledFrom_mono (text : List Char) (e : Nat) :
    ∀ (L : List Sec) (a b : Nat), a ≤ b → wsOnly (pySlice text a b) = true →
    TiledFrom text e b L → TiledFrom text e a L := by
  intro L
  induction L with
  | nil =>
    intro a b hab hws h
    refine ⟨le_trans hab h.1, ?_⟩
    rw [← pySlice_append text hab h.1, wsOnly_append, hws, h.2]
    rfl
  | cons s rest _ =>
    intro a b hab hws h
    refine ⟨?_, le_trans hab h.2.1, h.2.2.1, h.2.2.2⟩
    rw [← pySlice_append text hab h.2.1, wsOnly_append, hws, h.1]
    rfl

theorem buildSecs_tiled (text : List Char) :
    ∀ (ps : List Nat) (a e : Nat), List.Chain' (· < ·) (a :: ps) →
    (a :: ps).getLast (by simp) = e →
    TiledFrom text e a (buildSecs text (a :: ps)) := by
  intro ps
  induction ps with
  | nil =>
    intro a e _ hlast
    have ha : a = e := by simpa using hlast
    subst ha
    exact ⟨le_refl a, by rw [pySlice_self]; rfl⟩
  | cons b rest ih =>
    intro a e hchain hlast
    obtain ⟨hab, hchain2⟩ := List.chain'_cons.mp hchain
    have hlast2 : (b :: rest).getLast (by simp) = e := by
      rw [← hlast]
      exact (List.getLast_cons (by simp)).symm
    have hbuild0 : buildSecs text (a :: b :: rest) =
        if (stripChars (pySlice text a b)).isEmpty then buildSecs text (b :: rest)
        else
          { header := some (headerOf (stripChars (pySlice text a b)))
            content := stripChars (pySlice text a b)
            start := a
            stop := b } :: buildSecs text (b :: rest) := rfl
    by_cases hempty : (stripChars (pySlice text a b)).isEmpty
    · rw [hbuild0, if_pos hempty]
      exact TiledFrom_mono text e _ a b (le_of_lt hab)
        ((stripChars_isEmpty_iff_wsOnly _).mp hempty) (ih b e hchain2 hlast2)
    · rw [hbuild0, if_neg hempty]
      exact ⟨by rw [pySlice_self]; rfl, le_refl a, hab, ih b e hchain2 hlast2⟩

theorem buildSecs_content (text : List Char) :
    ∀ (ps : List Nat), ∀ s ∈ buildSecs text ps,
    s.content = stripChars (pySlice text s.start s.stop) ∧ s.content ≠ [] := by
  intro ps
  induction ps with
  | nil => intro s hs; simp [buildSecs] at hs
  | cons a rest ih =>
    cases rest with
    | nil => intro s hs; simp [buildSecs] at hs
    | cons b rest2 =>
      intro s hs
      have hbuild0 : buildSecs text (a :: b :: rest2) =
          if (stripChars (pySlice text a b)).isEmpty then buildSecs text (b :: rest2)
          else
            { header := some (headerOf (stripChars (pySlice text a b)))
              content := stripChars (pySlice text a b)
              start := a
              stop := b } :: buildSecs text (b :: rest2) := rfl
      by_cases hempty : (stripChars (pySlice text a b)).isEmpty
      · rw [hbuild0, if_pos hempty] at hs
        exact ih s hs
      · rw [hbuild0, if_neg hempty] at hs
        rcases List.mem_cons.mp hs with heq | hs2
        · subst heq
          exact ⟨rfl, by simpa [List.isEmpty_iff] using hempty⟩
        · exact ih s hs2

theorem boundaryPositions_chain (text : List Char) :
    List.Chain' (· < ·) (boundaryPositions text ++ [text.length]) := by
  apply List.chain'_append.mpr
  refine ⟨((List.pairwise_lt_range text.length).filter _).chain', by simp, ?_⟩
  intro x hx y hy
  simp only [List.head?_cons, Option.mem_def, Option.some_inj] at hy
  subst hy
  have hxmem : x ∈ boundaryPositions text := by
    by_cases hq : boundaryPositions text = []
    · rw [hq] at hx
      simp at hx
    · have h2 := List.getLast?_eq_getLast _ hq
      rw [h2] at hx
      simp only [Option.mem_def, Option.some_inj] at hx
      rw [← hx]
      exact List.getLast_mem hq
  have := List.mem_filter.mp hxmem
  exact List.mem_range.mp this.1

/-! ## Claim theorem: section partition -/

/-- C3 (amended): the produced sections are ordered and non-overlapping with
nonempty spans, but they do not partition the input: all text before the
first boundary match is dropped, whitespace-only inter-boundary slices are
skipped, and each content is the whitespace-stripped slice, so concatenating
contents reconstructs the input only up to the dropped preamble and the
trimmed whitespace.  Formally: with no boundary match the result is one
section spanning the whole (stripped) input; with matches, the sections tile
the range from the first match position to the end of the text with only
whitespace-only gaps between and after them, and every section's content is
the stripped slice of its span (nonempty in the boundary case). -/
theorem split_sections_partition (text : List Char) :
    (boundaryPositions text = [] →
      split_sections text =
        [{ header := none, content := stripChars text, start := 0,
           stop := text.length }]) ∧
    (∀ p ps, boundaryPositions text = p :: ps →
      TiledFrom text text.length p (split_sections text)) ∧
    (∀ s ∈ split_sections text,
      s.content = stripChars (pySlice text s.start s.stop)) ∧
    (boundaryPositions text ≠ [] → ∀ s ∈ split_sections text, s.content ≠ []) := by
  refine ⟨?_, ?_, ?_, ?_⟩
  · intro hpos
    unfold split_sections
    rw [if_pos (by simp [hpos])]
  · intro p ps hpos
    unfold split_sections
    rw [if_neg (by simp [hpos])]
    rw [hpos]
    have hchain := boundaryPositions_chain text
    rw [hpos] at hchain
    have hlast : ((p :: ps) ++ [text.length]).getLast (by simp) = text.length :=
      List.getLast_concat _
    exact buildSecs_tiled text (ps ++ [text.length]) p text.length
      (by simpa using hchain) (by simpa using hlast)
  · intro s hs
    unfold split_sections at hs
    by_cases hpos : (boundaryPositions text).isEmpty
    · rw [if_pos hpos] at hs
      rcases List.mem_singleton.mp hs with rfl
      simp [pySlice, List.take_length]
    · rw [if_neg hpos] at hs
      exact (buildSecs_content text _ s hs).1
  · intro hpos s hs
    unfold split_sections at hs
    rw [if_neg (by simpa [List.isEmpty_iff] using hpos)] at hs
    exact (buildSecs_content text _ s hs).2

/-- Counterexample to C3 as stated: on "Preamble\nSection 1 x" the only
boundary match is at offset 8, the preamble before it is dropped and the
slice is stripped, so concatenating the section contents does not
reconstruct the input (and the sections leave the gap [0,8) uncovered). -/
theorem split_sections_counterexample :
    ((split_sections ("Preamble\nSection 1 x".toList)).map Sec.content).flatten ≠
      "Preamble\nSection 1 x".toList ∧
    (split_sections ("Preamble\nSection 1 x".toList)).map Sec.start = [8] := by
  constructor
  · decide
  · decide
